import Mathlib

/-!
Verification of the bada task tracker engine: the recurrence parser/scheduler
from internal/ui/ui.go and the task repository / trash / topic-note store from
internal/storage.  Strings are modelled as lists of characters, calendar dates
at day granularity (the code discards time-of-day via normalizeDate before all
recurrence arithmetic, and the spec declares timezone effects out of scope).
Days are counted in the proleptic Gregorian calendar with 1970-01-01 = day 0,
matching the absolute-day arithmetic of the Go time package.
-/

namespace Bada

/-! ## Character and string helpers (Go strings package, ASCII fragment) -/

/-- Whitespace test used by strings.TrimSpace (ASCII fragment; the rule and
topic strings handled by the program are ASCII). -/
def isSpaceChar (c : Char) : Bool :=
  c == ' ' || c == '\t' || c == '\n' || c == '\x0b' || c == '\x0c' || c == '\r'

/-- Model of strings.TrimSpace: drop leading and trailing whitespace. -/
def trim (s : List Char) : List Char :=
  ((s.dropWhile isSpaceChar).reverse.dropWhile isSpaceChar).reverse

/-- Model of strings.ToLower (ASCII fragment). -/
def lower (s : List Char) : List Char := s.map Char.toLower

/-- Strip a literal from the front of a string, returning the remainder. -/
def stripLit : List Char → List Char → Option (List Char)
  | [], s => some s
  | _ :: _, [] => none
  | p :: ps, c :: cs => if c = p then stripLit ps cs else none

/-- Model of strings.HasPrefix via `stripLit`. -/
def hasInit (p s : List Char) : Bool := (stripLit p s).isSome

/-- Numeric value of a digit string (strconv.Atoi on a `\d+` match; overflow
of machine ints is out of scope, digit counts in rules are tiny). -/
def natOfDigits (ds : List Char) : Int :=
  ds.foldl (fun n c => n * 10 + ((c.toNat : Int) - 48)) 0

def isLowerAlpha (c : Char) : Bool := 'a' ≤ c && c ≤ 'z'

/-! ## Recurrence rule parser (parseRecurrenceSpec, ui.go)

The Go code matches the rules
  `(?i)^every\s*(\d+)?\s*(day|days|week|weeks|month|months)(?:\s+on\s+([a-z]+))?$`
  `(?i)^(daily|weekly|monthly)(?:\s+on\s+([a-z]+))?$`
after TrimSpace.  Since every letter class in the regexes is case-insensitive
and parseWeekday lowercases its input, parsing factors through lowercasing the
whole trimmed rule, which is how it is written here.  The display label field
of the Go recurrenceSpec is presentation-only and omitted. -/

inductive RecUnit where
  | day
  | week
  | month
deriving DecidableEq

structure RecSpec where
  every : Int
  unit : RecUnit
  weekday : Option Int
deriving DecidableEq

/-- Model of parseWeekday (ui.go): Go weekday numbering, Sunday = 0. -/
def parseWeekday (input : List Char) : Option Int :=
  let s := lower (trim input)
  if s = ['m','o','n'] ∨ s = ['m','o','n','d','a','y'] then some 1
  else if s = ['t','u','e'] ∨ s = ['t','u','e','s'] ∨ s = ['t','u','e','s','d','a','y'] then some 2
  else if s = ['w','e','d'] ∨ s = ['w','e','d','n','e','s','d','a','y'] then some 3
  else if s = ['t','h','u'] ∨ s = ['t','h','u','r'] ∨ s = ['t','h','u','r','s'] ∨
      s = ['t','h','u','r','s','d','a','y'] then some 4
  else if s = ['f','r','i'] ∨ s = ['f','r','i','d','a','y'] then some 5
  else if s = ['s','a','t'] ∨ s = ['s','a','t','u','r','d','a','y'] then some 6
  else if s = ['s','u','n'] ∨ s = ['s','u','n','d','a','y'] then some 0
  else none

/-- Match of the optional regex tail `(?:\s+on\s+([a-z]+))?$` on the remainder
after the unit word: either end of string, or whitespace, `on`, whitespace and
a letters-only weekday token reaching the end. -/
def onClause (r : List Char) : Option (Option (List Char)) :=
  match r with
  | [] => some none
  | _ :: _ =>
    let sp1 := r.takeWhile isSpaceChar
    let r1 := r.dropWhile isSpaceChar
    if sp1 = [] then none
    else
      match stripLit ['o','n'] r1 with
      | none => none
      | some r2 =>
        let sp2 := r2.takeWhile isSpaceChar
        let r3 := r2.dropWhile isSpaceChar
        if sp2 = [] then none
        else if !r3.isEmpty && r3.all isLowerAlpha then some (some r3) else none

/-- Try one unit alternative of the `every` regex: strip the unit word, then
the remainder must satisfy `onClause`. -/
def unitTry (name : List Char) (u : RecUnit) (r : List Char) :
    Option (RecUnit × Option (List Char)) :=
  match stripLit name r with
  | none => none
  | some rest =>
    match onClause rest with
    | none => none
    | some wd => some (u, wd)

/-- The `(day|days|week|weeks|month|months)` alternation.  At most one
alternative can complete a match (the singular form leaves a remainder
starting with `s`, which `onClause` rejects), so the order is indifferent. -/
def tryUnits (r : List Char) : Option (RecUnit × Option (List Char)) :=
  match unitTry ['d','a','y','s'] .day r with
  | some x => some x
  | none =>
  match unitTry ['d','a','y'] .day r with
  | some x => some x
  | none =>
  match unitTry ['w','e','e','k','s'] .week r with
  | some x => some x
  | none =>
  match unitTry ['w','e','e','k'] .week r with
  | some x => some x
  | none =>
  match unitTry ['m','o','n','t','h','s'] .month r with
  | some x => some x
  | none => unitTry ['m','o','n','t','h'] .month r

/-- One alternative of the `(daily|weekly|monthly)` regex. -/
def aliasTry1 (name : List Char) (u : RecUnit) (l : List Char) : Option RecSpec :=
  match stripLit name l with
  | none => none
  | some rest =>
    match onClause rest with
    | none => none
    | some wd => some ⟨1, u, wd.bind parseWeekday⟩

def aliasTry (l : List Char) : Option RecSpec :=
  match aliasTry1 ['d','a','i','l','y'] .day l with
  | some x => some x
  | none =>
  match aliasTry1 ['w','e','e','k','l','y'] .week l with
  | some x => some x
  | none => aliasTry1 ['m','o','n','t','h','l','y'] .month l

def noneLit : List Char := ['n','o','n','e']

def everyLit : List Char := ['e','v','e','r','y']

/-- Body of parseRecurrenceSpec on the lowercased, trimmed rule.  The count
defaults to 1 when the digit group is absent or its value is not positive,
exactly as in the code. -/
def parseCore (l : List Char) : Option RecSpec :=
  if l = [] then none
  else
    match stripLit everyLit l with
    | some rest =>
      let r1 := rest.dropWhile isSpaceChar
      let digits := r1.takeWhile Char.isDigit
      let r2 := r1.dropWhile Char.isDigit
      let r3 := r2.dropWhile isSpaceChar
      match tryUnits r3 with
      | some (u, wdStr) =>
        let count : Int := if digits ≠ [] ∧ 0 < natOfDigits digits then natOfDigits digits else 1
        some ⟨count, u, wdStr.bind parseWeekday⟩
      | none => none
    | none => aliasTry l

/-- Model of parseRecurrenceSpec (ui.go): TrimSpace, then the case-insensitive
regex match, which factors through lowercasing. -/
def parseRecurrenceSpec (input : List Char) : Option RecSpec :=
  parseCore (lower (trim input))

/-! ## Calendar-day arithmetic

Dates are proleptic Gregorian; `monthStartDay t` is the absolute day number
(1970-01-01 = day 0, as in Unix time) of the first day of the month with
month index `t = 12*year + (month-1)`.  The closed form is the standard
civil-from-days computation, so `dayNum ⟨y, m, d⟩ = monthStartDay (12*y+m-1)
+ (d-1)` agrees with the absolute-day arithmetic the Go time package uses for
`time.Date` and `AddDate`. -/

def monthStartDay (t : Int) : Int :=
  let a := t - 2
  let yv := a / 12
  let mp := a % 12
  365 * yv + yv / 4 - yv / 100 + yv / 400 + (153 * mp + 2) / 5 - 719468

/-- Length of the month with month index `t`. -/
def daysInMonthIdx (t : Int) : Int := monthStartDay (t + 1) - monthStartDay t

theorem dim_bounds (t : Int) : 28 ≤ daysInMonthIdx t ∧ daysInMonthIdx t ≤ 31 := by
  unfold daysInMonthIdx monthStartDay
  dsimp only
  have h : (t-2) % 12 = 0 ∨ (t-2) % 12 = 1 ∨ (t-2) % 12 = 2 ∨ (t-2) % 12 = 3 ∨
      (t-2) % 12 = 4 ∨ (t-2) % 12 = 5 ∨ (t-2) % 12 = 6 ∨ (t-2) % 12 = 7 ∨
      (t-2) % 12 = 8 ∨ (t-2) % 12 = 9 ∨ (t-2) % 12 = 10 ∨ (t-2) % 12 = 11 := by omega
  rcases h with h|h|h|h|h|h|h|h|h|h|h|h <;> omega

/-- A calendar date, year/month/day.  The code normalizes every date to
midnight (normalizeDate) before recurrence arithmetic, so time-of-day is not
modelled. -/
structure Date where
  y : Int
  m : Int
  d : Int
deriving DecidableEq

/-- A date as month index plus day-of-month, the working representation for
calendar-month stepping. -/
structure MDate where
  t : Int
  d : Int
deriving DecidableEq

def toMD (dt : Date) : MDate := ⟨12 * dt.y + dt.m - 1, dt.d⟩

/-- Absolute day number of an `MDate`. -/
def dayNumMD (c : MDate) : Int := monthStartDay c.t + c.d - 1

/-- Absolute day number of a `Date` (1970-01-01 = 0). -/
def dayNum (dt : Date) : Int := dayNumMD (toMD dt)

/-- Go weekday number (Sunday = 0) of an absolute day; day 0 = 1970-01-01 was
a Thursday. -/
def weekdayOfDay (a : Int) : Int := (a + 4) % 7

/-- Model of startOfWeek (ui.go) with Monday week start, on day numbers. -/
def startOfWeek (a : Int) : Int := a - (weekdayOfDay a - 1 + 7) % 7

/-- Model of weekdayOffset (ui.go). -/
def weekdayOffset (weekStart target : Int) : Int := (target - weekStart + 7) % 7

/-- The loops in ui.go replace a non-positive `every` by 1 before stepping. -/
def posify (e : Int) : Int := if e ≤ 0 then 1 else e

theorem posify_pos (e : Int) : 1 ≤ posify e := by
  unfold posify; split <;> omega

/-- Civil normalization of (month index, day) with a day possibly past the end
of the month: the semantics of Go time.Date, which converts to an absolute day
(first of month plus day-1) and back to a civil date. -/
def normMD (t d : Int) : MDate :=
  if d ≤ daysInMonthIdx t then ⟨t, d⟩
  else normMD (t + 1) (d - daysInMonthIdx t)
termination_by d.toNat
decreasing_by
  have h := dim_bounds t
  omega

/-- Model of Go AddDate(0, n, 0): add to the month field, then normalize. -/
def goAddMonths (c : MDate) (n : Int) : MDate := normMD (c.t + n) c.d

theorem normMD_dayNum (t d : Int) : dayNumMD (normMD t d) = monthStartDay t + d - 1 := by
  induction t, d using normMD.induct with
  | case1 t d h =>
    unfold normMD
    rw [if_pos h]
    rfl
  | case2 t d h ih =>
    unfold normMD
    rw [if_neg h]
    rw [ih]
    unfold daysInMonthIdx
    omega

theorem normMD_t_ge (t d : Int) : t ≤ (normMD t d).t := by
  induction t, d using normMD.induct with
  | case1 t d h =>
    unfold normMD
    rw [if_pos h]
  | case2 t d h ih =>
    unfold normMD
    rw [if_neg h]
    omega

/-- With day-of-month at most 28, no normalization happens: every month has at
least 28 days. -/
theorem normMD_of_le (t d : Int) (h : d ≤ 28) : normMD t d = ⟨t, d⟩ := by
  unfold normMD
  rw [if_pos (by have := dim_bounds t; omega)]

theorem monthStartDay_succ_ge (t : Int) : monthStartDay t + 28 ≤ monthStartDay (t + 1) := by
  have h := dim_bounds t
  unfold daysInMonthIdx at h
  omega

theorem monthStartDay_add_nat (t : Int) (k : Nat) :
    monthStartDay t + 28 * k ≤ monthStartDay (t + k) := by
  induction k with
  | zero => simp
  | succ n ih =>
    have h := monthStartDay_succ_ge (t + n)
    have e : t + ((n : Int) + 1) = (t + n) + 1 := by ring
    push_cast
    rw [e]
    push_cast at ih
    omega

theorem monthStartDay_lt_of_lt (s u : Int) (h : s + 1 ≤ u) :
    monthStartDay s + 28 ≤ monthStartDay u := by
  have h1 := monthStartDay_add_nat s (u - s).toNat
  have e : s + (((u - s).toNat : Int)) = u := by omega
  rw [e] at h1
  omega

theorem goAddMonths_dayNum (c : MDate) (n : Int) :
    dayNumMD (goAddMonths c n) = monthStartDay (c.t + n) + c.d - 1 := by
  unfold goAddMonths
  exact normMD_dayNum (c.t + n) c.d

theorem goAddMonths_dayNum_ge (c : MDate) (e : Int) :
    dayNumMD c + 28 ≤ dayNumMD (goAddMonths c (posify e)) := by
  rw [goAddMonths_dayNum]
  have h := monthStartDay_lt_of_lt c.t (c.t + posify e) (by have := posify_pos e; omega)
  unfold dayNumMD
  omega

/-! ## Next-occurrence stepping (ui.go) -/

/-- Model of nextByDays (ui.go) on absolute day numbers: both dates are
already normalized to day granularity, so `now.Sub(base).Hours()/24` is the
exact day difference.  Division is exact Go semantics here: the dividend is
non-negative on the dividing branch. -/
def nextByDays (base now interval : Int) : Int :=
  if interval ≤ 0 then base
  else if now < base then base
  else base + ((now - base) / interval + 1) * interval

/-- Loop body of nextWeeklyByWeekday (ui.go): candidate weeks advance by
`every` (already made positive) until the weekday-adjusted candidate passes
`now`.  `ws` is the Monday of the base week, `off` the weekday offset from
Monday, `w` the running week count. -/
def nextWeeklyByWeekdayAux (now ws off e w : Int) : Int :=
  if ws + w * 7 + off > now then ws + w * 7 + off
  else nextWeeklyByWeekdayAux now ws off e (w + posify e)
termination_by (now + 1 - (ws + w * 7 + off)).toNat
decreasing_by
  have h := posify_pos e
  omega

/-- Model of nextWeeklyByWeekday (ui.go).  The week count between the two
Monday week starts is an exact multiple of 7, so Go truncating division and
floor division agree; the modulus is taken of non-negative operands. -/
def nextWeeklyByWeekday (base now every wd : Int) : Int :=
  let pe := posify every
  let weekStart := startOfWeek base
  let nowWeekStart := startOfWeek now
  let weeksSince0 := (nowWeekStart - weekStart) / 7
  let weeksSince1 := if weeksSince0 < 0 then 0 else weeksSince0
  let adjust := weeksSince1 % pe
  let weeksSince2 := if adjust ≠ 0 then weeksSince1 + (pe - adjust) else weeksSince1
  nextWeeklyByWeekdayAux now weekStart (weekdayOffset 1 wd) pe weeksSince2

/-- Loop of nextByMonths (ui.go): the candidate itself is stepped by
`AddDate(0, every, 0)` until strictly past `now`. -/
def nextByMonthsAux (now e : Int) (c : MDate) : MDate :=
  if dayNumMD c > now then c
  else nextByMonthsAux now e (goAddMonths c (posify e))
termination_by (now + 1 - dayNumMD c).toNat
decreasing_by
  have h := goAddMonths_dayNum_ge c e
  omega

/-- Model of nextByMonths (ui.go). -/
def nextByMonths (base : MDate) (now every : Int) : MDate :=
  nextByMonthsAux now (posify every) base

/-- Model of firstWeekdayOfMonth (ui.go), returning the absolute day number of
the first day with Go weekday `wd` in the month with index `t`. -/
def firstWeekdayOfMonthIdx (t wd : Int) : Int :=
  monthStartDay t + (wd - weekdayOfDay (monthStartDay t) + 7) % 7

theorem firstWeekdayOfMonthIdx_step (b : MDate) (e wd : Int) :
    firstWeekdayOfMonthIdx b.t wd < firstWeekdayOfMonthIdx (goAddMonths b (posify e)).t wd := by
  have h1 : b.t + 1 ≤ (goAddMonths b (posify e)).t := by
    have h2 := normMD_t_ge (b.t + posify e) b.d
    have h3 := posify_pos e
    unfold goAddMonths
    omega
  have h4 := monthStartDay_lt_of_lt b.t ((goAddMonths b (posify e)).t) h1
  unfold firstWeekdayOfMonthIdx weekdayOfDay
  omega

/-- Loop of nextMonthlyByWeekday (ui.go): the base date is stepped by
`AddDate(0, every, 0)` and the candidate recomputed as the first occurrence of
the weekday in the base month, until strictly past `now`. -/
def nextMonthlyByWeekdayAux (now e wd : Int) (b : MDate) : Int :=
  if firstWeekdayOfMonthIdx b.t wd > now then firstWeekdayOfMonthIdx b.t wd
  else nextMonthlyByWeekdayAux now e wd (goAddMonths b (posify e))
termination_by (now + 1 - firstWeekdayOfMonthIdx b.t wd).toNat
decreasing_by
  have h := firstWeekdayOfMonthIdx_step b e wd
  omega

/-- Model of nextMonthlyByWeekday (ui.go). -/
def nextMonthlyByWeekday (base : MDate) (now every wd : Int) : Int :=
  nextMonthlyByWeekdayAux now (posify every) wd base

/-- Model of nextFromSpec (ui.go). -/
def nextFromSpec (base : Date) (now : Int) (spec : RecSpec) : Int :=
  match spec.unit with
  | .day => nextByDays (dayNum base) now spec.every
  | .week =>
    match spec.weekday with
    | some wd => nextWeeklyByWeekday (dayNum base) now spec.every wd
    | none => nextByDays (dayNum base) now (spec.every * 7)
  | .month =>
    match spec.weekday with
    | some wd => nextMonthlyByWeekday (toMD base) now spec.every wd
    | none => dayNumMD (nextByMonths (toMD base) now spec.every)

/-! ## Task record and scheduling entry points -/

/-- The storage.Task record.  Optional timestamps are day-granularity dates;
`createdAt = none` models a Go zero time (the `CreatedAt.IsZero()` check). -/
structure Task where
  id : Int
  title : List Char
  done : Bool
  topics : List (List Char)
  tags : List Char
  due : Option Date
  start : Option Date
  priority : Int
  recurring : Bool
  recurrenceRule : List Char
  recurrenceInterval : Int
  notes : List Char
  createdAt : Option Date
  completedAt : Option Date
deriving DecidableEq

/-- Model of isRecurringTask (ui.go). -/
def isRecurringTask (t : Task) : Bool :=
  let rule := lower (trim t.recurrenceRule)
  t.recurring || (!rule.isEmpty && !(rule == noneLit))

/-- Model of recurrenceBaseDate (ui.go): due, else start, else created-at
(none when the created time is the Go zero time). -/
def recurrenceBaseDate (t : Task) : Option Date :=
  match t.due with
  | some d => some d
  | none =>
    match t.start with
    | some s => some s
    | none => t.createdAt

/-- Model of nextRecurrenceDate (ui.go); `now` is passed as an absolute day
number in place of time.Now().  The code trims the rule before handing it to
parseRecurrenceSpec, which trims again; trimming is idempotent, so the parser
receives the raw rule here. -/
def nextRecurrenceDate (t : Task) (now : Int) : Option Int :=
  if !isRecurringTask t then none
  else
    match recurrenceBaseDate t with
    | none => none
    | some base =>
      let useSpec := hasInit everyLit (lower (trim t.recurrenceRule))
      match parseRecurrenceSpec t.recurrenceRule with
      | some spec =>
        if useSpec || t.recurrenceInterval = 0 then some (nextFromSpec base now spec)
        else if 0 < t.recurrenceInterval then
          some (nextByDays (dayNum base) now t.recurrenceInterval)
        else some (nextFromSpec base now spec)
      | none =>
        if 0 < t.recurrenceInterval then some (nextByDays (dayNum base) now t.recurrenceInterval)
        else none

/-! ## Supporting lemmas about the scheduler -/

theorem aliasTry1_every (name : List Char) (u : RecUnit) (l : List Char) (spec : RecSpec)
    (h : aliasTry1 name u l = some spec) : spec.every = 1 := by
  unfold aliasTry1 at h
  split at h
  · exact absurd h (by simp)
  · split at h
    · exact absurd h (by simp)
    · cases h
      rfl

/-- Every parsed spec has a positive count: the regex count group is taken
only when positive, and defaults to 1. -/
theorem parseCore_every_pos (l : List Char) (spec : RecSpec)
    (h : parseCore l = some spec) : 1 ≤ spec.every := by
  unfold parseCore at h
  split at h
  · exact absurd h (by simp)
  · split at h
    · rename_i rest heq
      dsimp only at h
      split at h
      · rename_i u wdStr heq2
        cases h
        dsimp only
        split
        · omega
        · omega
      · exact absurd h (by simp)
    · unfold aliasTry at h
      split at h
      · rename_i x heq1
        cases h
        have := aliasTry1_every _ _ _ _ heq1
        omega
      · split at h
        · rename_i x heq2
          cases h
          have := aliasTry1_every _ _ _ _ heq2
          omega
        · have := aliasTry1_every _ _ _ _ h
          omega

theorem parse_every_pos (s : List Char) (spec : RecSpec)
    (h : parseRecurrenceSpec s = some spec) : 1 ≤ spec.every :=
  parseCore_every_pos _ _ h

/-- A rule that parses is neither empty nor the literal `none` after trimming
and lowercasing, so the task counts as recurring. -/
theorem isRecurringTask_of_parse (t : Task) (spec : RecSpec)
    (h : parseRecurrenceSpec t.recurrenceRule = some spec) : isRecurringTask t = true := by
  unfold parseRecurrenceSpec at h
  unfold isRecurringTask
  by_cases he : lower (trim t.recurrenceRule) = []
  · rw [he] at h
    have hx : parseCore ([] : List Char) = none := by decide
    rw [hx] at h
    cases h
  · by_cases hn : lower (trim t.recurrenceRule) = noneLit
    · rw [hn] at h
      have hx : parseCore noneLit = none := by decide
      rw [hx] at h
      cases h
    · simp only [Bool.or_eq_true, Bool.and_eq_true, Bool.not_eq_true']
      right
      constructor
      · simp [List.isEmpty_iff, he]
      · simp [hn]

theorem nextWeeklyByWeekdayAux_gt (now ws off e w : Int) :
    now < nextWeeklyByWeekdayAux now ws off e w := by
  refine nextWeeklyByWeekdayAux.induct now ws off e
    (fun v => now < nextWeeklyByWeekdayAux now ws off e v) ?_ ?_ w
  · intro v h
    rw [nextWeeklyByWeekdayAux, if_pos h]
    omega
  · intro v h ih
    rw [nextWeeklyByWeekdayAux, if_neg h]
    exact ih

theorem nextWeeklyByWeekday_gt (base now every wd : Int) :
    now < nextWeeklyByWeekday base now every wd := by
  unfold nextWeeklyByWeekday
  exact nextWeeklyByWeekdayAux_gt _ _ _ _ _

theorem nextByMonthsAux_gt (now e : Int) (c : MDate) :
    now < dayNumMD (nextByMonthsAux now e c) := by
  refine nextByMonthsAux.induct now e
    (fun v => now < dayNumMD (nextByMonthsAux now e v)) ?_ ?_ c
  · intro v h
    rw [nextByMonthsAux, if_pos h]
    omega
  · intro v h ih
    rw [nextByMonthsAux, if_neg h]
    exact ih

theorem nextByMonths_gt (base : MDate) (now every : Int) :
    now < dayNumMD (nextByMonths base now every) := by
  unfold nextByMonths
  exact nextByMonthsAux_gt _ _ _

theorem nextMonthlyByWeekdayAux_gt (now e wd : Int) (b : MDate) :
    now < nextMonthlyByWeekdayAux now e wd b := by
  refine nextMonthlyByWeekdayAux.induct now e wd
    (fun v => now < nextMonthlyByWeekdayAux now e wd v) ?_ ?_ b
  · intro v h
    rw [nextMonthlyByWeekdayAux, if_pos h]
    omega
  · intro v h ih
    rw [nextMonthlyByWeekdayAux, if_neg h]
    exact ih

theorem nextMonthlyByWeekday_gt (base : MDate) (now every wd : Int) :
    now < nextMonthlyByWeekday base now every wd := by
  unfold nextMonthlyByWeekday
  exact nextMonthlyByWeekdayAux_gt _ _ _ _

/-- Characterization of nextByDays for a positive interval: it returns the
least date of the form base + k*N that lies strictly after now. -/
theorem nextByDays_least (base now N : Int) (h : 1 ≤ N) :
    now < nextByDays base now N ∧
    (∃ k : Nat, nextByDays base now N = base + k * N) ∧
    (∀ j : Nat, now < base + j * N → nextByDays base now N ≤ base + j * N) := by
  unfold nextByDays
  rw [if_neg (by omega)]
  by_cases hb : now < base
  · rw [if_pos hb]
    refine ⟨hb, ⟨0, by ring⟩, ?_⟩
    intro j hj
    have h0 : (0 : Int) ≤ (j : Int) * N := by positivity
    omega
  · rw [if_neg hb]
    have hdiv := Int.ediv_add_emod (now - base) N
    have hr0 : 0 ≤ (now - base) % N := Int.emod_nonneg _ (by omega)
    have hrN : (now - base) % N < N := Int.emod_lt_of_pos _ (by omega)
    have hq0 : 0 ≤ (now - base) / N := Int.ediv_nonneg (by omega) (by omega)
    have hexp : ((now - base) / N + 1) * N = N * ((now - base) / N) + N := by ring
    refine ⟨by linarith, ?_, ?_⟩
    · refine ⟨((now - base) / N + 1).toNat, ?_⟩
      have hc : ((((now - base) / N + 1).toNat : Int)) = (now - base) / N + 1 := by omega
      rw [hc]
    · intro j hj
      have hjq : (now - base) / N + 1 ≤ (j : Int) := by
        by_contra hcon
        push_neg at hcon
        have hjle : (j : Int) ≤ (now - base) / N := by omega
        have := mul_le_mul_of_nonneg_right hjle (by omega : (0:Int) ≤ N)
        have hcomm : ((now - base) / N) * N = N * ((now - base) / N) := by ring
        linarith
      have := mul_le_mul_of_nonneg_right hjq (by omega : (0:Int) ≤ N)
      linarith

/-- Rewriting step for evaluating `normMD` on concrete overflowing days. -/
theorem normMD_step (t d : Int) (h : ¬ d ≤ daysInMonthIdx t) :
    normMD t d = normMD (t + 1) (d - daysInMonthIdx t) := by
  rw [normMD, if_neg h]

/-- Rewriting steps for evaluating the month loop on concrete dates. -/
theorem nextByMonthsAux_done (now e : Int) (c : MDate) (h : dayNumMD c > now) :
    nextByMonthsAux now e c = c := by
  rw [nextByMonthsAux, if_pos h]

theorem nextByMonthsAux_next (now e : Int) (c c' : MDate) (h : ¬ dayNumMD c > now)
    (h2 : goAddMonths c (posify e) = c') :
    nextByMonthsAux now e c = nextByMonthsAux now e c' := by
  rw [nextByMonthsAux, if_neg h, h2]

/-- When the day-of-month is at most 28 no AddDate normalization ever fires,
so the month loop preserves the day-of-month and advances the month index in
multiples of the (positivized) interval. -/
theorem nextByMonthsAux_preserve (now e : Int) (c : MDate) (h1 : 1 ≤ c.d) (h2 : c.d ≤ 28) :
    (nextByMonthsAux now e c).d = c.d ∧
    ∃ k : Nat, (nextByMonthsAux now e c).t = c.t + k * posify e := by
  refine nextByMonthsAux.induct now e
    (fun v => 1 ≤ v.d → v.d ≤ 28 → (nextByMonthsAux now e v).d = v.d ∧
      ∃ k : Nat, (nextByMonthsAux now e v).t = v.t + k * posify e) ?_ ?_ c h1 h2
  · intro v h hv1 hv2
    rw [nextByMonthsAux, if_pos h]
    exact ⟨rfl, 0, by simp⟩
  · intro v h ih hv1 hv2
    rw [nextByMonthsAux, if_neg h]
    have hg : goAddMonths v (posify e) = ⟨v.t + posify e, v.d⟩ := by
      unfold goAddMonths
      exact normMD_of_le _ _ hv2
    rw [hg] at ih
    obtain ⟨hd, k, hk⟩ := ih hv1 hv2
    rw [hg]
    have e1 : (⟨v.t + posify e, v.d⟩ : MDate).d = v.d := rfl
    have e2 : (⟨v.t + posify e, v.d⟩ : MDate).t = v.t + posify e := rfl
    rw [e1] at hd
    rw [e2] at hk
    refine ⟨hd, k + 1, ?_⟩
    have hc : (((k + 1 : Nat)) : Int) * posify e = (k : Int) * posify e + posify e := by
      push_cast
      ring
    rw [hc]
    linarith [hk]

theorem posify_idem (e : Int) : posify (posify e) = posify e := by
  by_cases h : e ≤ 0 <;> simp [posify, h]

/-- Branch reduction of nextRecurrenceDate: a parsed rule is scheduled from
the parsed spec when the rule starts with `every` or the stored interval is
not positive. -/
theorem nrd_spec_path (t : Task) (now : Int) (spec : RecSpec) (base : Date)
    (hp : parseRecurrenceSpec t.recurrenceRule = some spec)
    (hb : recurrenceBaseDate t = some base)
    (hu : hasInit everyLit (lower (trim t.recurrenceRule)) = true ∨ t.recurrenceInterval ≤ 0) :
    nextRecurrenceDate t now = some (nextFromSpec base now spec) := by
  simp only [nextRecurrenceDate, isRecurringTask_of_parse t spec hp, hb, hp, Bool.not_true,
    Bool.false_eq_true, if_false]
  rcases hu with hu | hi
  · rw [hu]
    simp
  · by_cases h0 : t.recurrenceInterval = 0
    · simp [h0]
    · have hlt : ¬ 0 < t.recurrenceInterval := by omega
      by_cases hus : hasInit everyLit (lower (trim t.recurrenceRule)) = true
      · rw [hus]
        simp
      · simp only [Bool.not_eq_true] at hus
        rw [hus]
        simp [h0, hlt]

/-- Branch reduction of nextRecurrenceDate: a parsed rule that does not start
with `every` is overridden by the interval fallback when the interval is
positive. -/
theorem nrd_interval_path (t : Task) (now : Int) (spec : RecSpec) (base : Date)
    (hp : parseRecurrenceSpec t.recurrenceRule = some spec)
    (hb : recurrenceBaseDate t = some base)
    (hu : hasInit everyLit (lower (trim t.recurrenceRule)) = false)
    (hi : 0 < t.recurrenceInterval) :
    nextRecurrenceDate t now = some (nextByDays (dayNum base) now t.recurrenceInterval) := by
  simp only [nextRecurrenceDate, isRecurringTask_of_parse t spec hp, hb, hp, Bool.not_true,
    Bool.false_eq_true, if_false, hu]
  have h0 : ¬ t.recurrenceInterval = 0 := by omega
  simp [h0, hi]

/-- Branch reduction of nextRecurrenceDate: an unparsable rule falls back to
interval-day math when the interval is positive. -/
theorem nrd_none_interval (t : Task) (now : Int) (base : Date)
    (hrec : isRecurringTask t = true)
    (hp : parseRecurrenceSpec t.recurrenceRule = none)
    (hb : recurrenceBaseDate t = some base)
    (hi : 0 < t.recurrenceInterval) :
    nextRecurrenceDate t now = some (nextByDays (dayNum base) now t.recurrenceInterval) := by
  simp only [nextRecurrenceDate, hrec, hb, hp, Bool.not_true, Bool.false_eq_true, if_false]
  simp [hi]

/-- Branch reduction of nextRecurrenceDate: an unparsable rule with a
non-positive interval yields no next date. -/
theorem nrd_none_none (t : Task) (now : Int) (base : Date)
    (hrec : isRecurringTask t = true)
    (hp : parseRecurrenceSpec t.recurrenceRule = none)
    (hb : recurrenceBaseDate t = some base)
    (hi : t.recurrenceInterval ≤ 0) :
    nextRecurrenceDate t now = none := by
  simp only [nextRecurrenceDate, hrec, hb, hp, Bool.not_true, Bool.false_eq_true, if_false]
  have h0 : ¬ 0 < t.recurrenceInterval := by omega
  simp [h0]

/-! ## Concrete tasks used in the scheduling claims -/

/-- A task record with neutral defaults, specialized per claim below. -/
def baseTask : Task :=
  { id := 1, title := ['t'], done := false, topics := [], tags := [],
    due := none, start := none, priority := 0, recurring := false,
    recurrenceRule := [], recurrenceInterval := 0, notes := [],
    createdAt := none, completedAt := none }

/-- Task with due 2024-01-01 and rule `every 2 weeks on Fri`. -/
def taskC2 : Task :=
  { baseTask with
    due := some ⟨2024, 1, 1⟩,
    recurrenceRule := ['e','v','e','r','y',' ','2',' ','w','e','e','k','s',' ','o','n',' ','F','r','i'] }

theorem taskC2_eval :
    nextRecurrenceDate taskC2 (dayNum ⟨2024, 1, 10⟩) = some (dayNum ⟨2024, 1, 19⟩) := by
  have hw : nextWeeklyByWeekday (dayNum ⟨2024, 1, 1⟩) (dayNum ⟨2024, 1, 10⟩) 2 5
      = dayNum ⟨2024, 1, 19⟩ := by
    have h1 : dayNum ⟨2024, 1, 1⟩ = 19723 := by decide
    have h2 : dayNum ⟨2024, 1, 10⟩ = 19732 := by decide
    have h3 : dayNum ⟨2024, 1, 19⟩ = 19741 := by decide
    rw [h1, h2, h3]
    unfold nextWeeklyByWeekday
    norm_num [startOfWeek, weekdayOfDay, weekdayOffset, posify]
    rw [nextWeeklyByWeekdayAux]
    norm_num
  have hred := nrd_spec_path taskC2 (dayNum ⟨2024, 1, 10⟩) ⟨2, .week, some 5⟩ ⟨2024, 1, 1⟩
    (by decide) (by decide) (Or.inl (by decide))
  rw [hred]
  show some (nextWeeklyByWeekday (dayNum ⟨2024, 1, 1⟩) (dayNum ⟨2024, 1, 10⟩) 2 5) = _
  rw [hw]

/-! ## Claims about the recurrence scheduler -/

/-- C2 counterexample: for due 2024-01-01 (a Monday), rule
`every 2 weeks on Fri`, now 2024-01-10, the code does NOT return 2024-01-12:
candidate weeks are aligned to multiples of 2 weeks from the base week, so the
Friday of the intervening week is skipped. -/
theorem claimC2_counterexample :
    nextRecurrenceDate taskC2 (dayNum ⟨2024, 1, 10⟩) ≠ some (dayNum ⟨2024, 1, 12⟩) := by
  rw [taskC2_eval]
  decide

/-- C2 amended: for due 2024-01-01 (a Monday), rule `every 2 weeks on Fri`,
now 2024-01-10, the next occurrence is 2024-01-19 — the Friday of the next
candidate week aligned to an even number of weeks after the base week.  The
result is indeed a Friday (Go weekday 5). -/
theorem claimC2_theorem :
    nextRecurrenceDate taskC2 (dayNum ⟨2024, 1, 10⟩) = some (dayNum ⟨2024, 1, 19⟩) ∧
    weekdayOfDay (dayNum ⟨2024, 1, 19⟩) = 5 :=
  ⟨taskC2_eval, by decide⟩

/-- Task with due 2024-01-01, alias rule `weekly`, and interval 3: the rule
matches the grammar, yet the interval fallback wins. -/
def taskC3 : Task :=
  { baseTask with
    due := some ⟨2024, 1, 1⟩,
    recurrenceRule := ['w','e','e','k','l','y'],
    recurrenceInterval := 3 }

/-- C3 counterexample: the rule `weekly` matches the grammar (it parses as
every 1 week), but with recurrence_interval = 3 the computation uses
interval-day math (next = 2024-01-07), not the parsed spec (which would give
2024-01-08).  So a grammar-matching rule does not always use the parsed
spec. -/
theorem claimC3_counterexample :
    parseRecurrenceSpec taskC3.recurrenceRule = some ⟨1, .week, none⟩ ∧
    nextRecurrenceDate taskC3 (dayNum ⟨2024, 1, 5⟩) = some (dayNum ⟨2024, 1, 7⟩) ∧
    nextFromSpec ⟨2024, 1, 1⟩ (dayNum ⟨2024, 1, 5⟩) ⟨1, .week, none⟩ = dayNum ⟨2024, 1, 8⟩ ∧
    dayNum ⟨2024, 1, 7⟩ ≠ dayNum ⟨2024, 1, 8⟩ := by
  refine ⟨by decide, by decide, by decide, by decide⟩

/-- C3 amended: the parsed spec is used exactly when the rule parses and
either starts with `every` (after trim, case-insensitively) or the stored
interval is not positive; for a parsed alias rule (daily/weekly/monthly) with
a positive interval, and for an unparsable rule with a positive interval, the
fallback treats the interval as `every N days`; an unparsable rule with no
positive interval yields no next date. -/
theorem claimC3_theorem (t : Task) (now : Int) (spec : RecSpec) (base : Date)
    (hb : recurrenceBaseDate t = some base)
    (hrec : isRecurringTask t = true) :
    (parseRecurrenceSpec t.recurrenceRule = some spec →
      (hasInit everyLit (lower (trim t.recurrenceRule)) = true ∨ t.recurrenceInterval ≤ 0) →
      nextRecurrenceDate t now = some (nextFromSpec base now spec)) ∧
    (parseRecurrenceSpec t.recurrenceRule = some spec →
      hasInit everyLit (lower (trim t.recurrenceRule)) = false →
      0 < t.recurrenceInterval →
      nextRecurrenceDate t now = some (nextByDays (dayNum base) now t.recurrenceInterval)) ∧
    (parseRecurrenceSpec t.recurrenceRule = none →
      0 < t.recurrenceInterval →
      nextRecurrenceDate t now = some (nextByDays (dayNum base) now t.recurrenceInterval)) ∧
    (parseRecurrenceSpec t.recurrenceRule = none →
      t.recurrenceInterval ≤ 0 →
      nextRecurrenceDate t now = none) := by
  refine ⟨?_, ?_, ?_, ?_⟩
  · intro hp hu
    exact nrd_spec_path t now spec base hp hb hu
  · intro hp hu hi
    exact nrd_interval_path t now spec base hp hb hu hi
  · intro hp hi
    exact nrd_none_interval t now base hrec hp hb hi
  · intro hp hi
    exact nrd_none_none t now base hrec hp hb hi

/-- C3 witness: the amended theorem applied to the concrete `weekly` /
interval-3 task. -/
theorem claimC3_witness :
    recurrenceBaseDate taskC3 = some ⟨2024, 1, 1⟩ ∧
    isRecurringTask taskC3 = true ∧
    ((parseRecurrenceSpec taskC3.recurrenceRule = some ⟨1, .week, none⟩ →
      (hasInit everyLit (lower (trim taskC3.recurrenceRule)) = true ∨
        taskC3.recurrenceInterval ≤ 0) →
      nextRecurrenceDate taskC3 (dayNum ⟨2024, 1, 5⟩)
        = some (nextFromSpec ⟨2024, 1, 1⟩ (dayNum ⟨2024, 1, 5⟩) ⟨1, .week, none⟩)) ∧
    (parseRecurrenceSpec taskC3.recurrenceRule = some ⟨1, .week, none⟩ →
      hasInit everyLit (lower (trim taskC3.recurrenceRule)) = false →
      0 < taskC3.recurrenceInterval →
      nextRecurrenceDate taskC3 (dayNum ⟨2024, 1, 5⟩)
        = some (nextByDays (dayNum ⟨2024, 1, 1⟩) (dayNum ⟨2024, 1, 5⟩) taskC3.recurrenceInterval)) ∧
    (parseRecurrenceSpec taskC3.recurrenceRule = none →
      0 < taskC3.recurrenceInterval →
      nextRecurrenceDate taskC3 (dayNum ⟨2024, 1, 5⟩)
        = some (nextByDays (dayNum ⟨2024, 1, 1⟩) (dayNum ⟨2024, 1, 5⟩) taskC3.recurrenceInterval)) ∧
    (parseRecurrenceSpec taskC3.recurrenceRule = none →
      taskC3.recurrenceInterval ≤ 0 →
      nextRecurrenceDate taskC3 (dayNum ⟨2024, 1, 5⟩) = none)) :=
  ⟨by decide, by decide,
    claimC3_theorem taskC3 (dayNum ⟨2024, 1, 5⟩) ⟨1, .week, none⟩ ⟨2024, 1, 1⟩
      (by decide) (by decide)⟩

/-- Task with due 2024-01-01 and rule `every 3 days`. -/
def taskC7 : Task :=
  { baseTask with
    due := some ⟨2024, 1, 1⟩,
    recurrenceRule := ['e','v','e','r','y',' ','3',' ','d','a','y','s'] }

/-- C7: for a task whose rule parses as `every N days` (a rule starting with
`every`, so the parsed spec is used), the next occurrence is the least date of
the form base + k*N days strictly after now, where the base date comes from
due, else start, else created-at (recurrenceBaseDate). -/
theorem claimC7_theorem (t : Task) (now N : Int) (base : Date)
    (hp : parseRecurrenceSpec t.recurrenceRule = some ⟨N, .day, none⟩)
    (hu : hasInit everyLit (lower (trim t.recurrenceRule)) = true)
    (hb : recurrenceBaseDate t = some base) :
    nextRecurrenceDate t now = some (nextByDays (dayNum base) now N) ∧
    1 ≤ N ∧
    now < nextByDays (dayNum base) now N ∧
    (∃ k : Nat, nextByDays (dayNum base) now N = dayNum base + k * N) ∧
    (∀ j : Nat, now < dayNum base + j * N →
      nextByDays (dayNum base) now N ≤ dayNum base + j * N) := by
  have hN : 1 ≤ N := parse_every_pos _ _ hp
  have hmain := nrd_spec_path t now ⟨N, .day, none⟩ base hp hb (Or.inl hu)
  have hc := nextByDays_least (dayNum base) now N hN
  exact ⟨hmain, hN, hc.1, hc.2.1, hc.2.2⟩

/-- C7 witness: base due 2024-01-01, rule `every 3 days`, now 2024-01-05;
the computed next occurrence is 2024-01-07, matching the claim. -/
theorem claimC7_witness :
    parseRecurrenceSpec taskC7.recurrenceRule = some ⟨3, .day, none⟩ ∧
    hasInit everyLit (lower (trim taskC7.recurrenceRule)) = true ∧
    recurrenceBaseDate taskC7 = some ⟨2024, 1, 1⟩ ∧
    nextByDays (dayNum ⟨2024, 1, 1⟩) (dayNum ⟨2024, 1, 5⟩) 3 = dayNum ⟨2024, 1, 7⟩ ∧
    (nextRecurrenceDate taskC7 (dayNum ⟨2024, 1, 5⟩)
        = some (nextByDays (dayNum ⟨2024, 1, 1⟩) (dayNum ⟨2024, 1, 5⟩) 3) ∧
      1 ≤ (3 : Int) ∧
      dayNum ⟨2024, 1, 5⟩ < nextByDays (dayNum ⟨2024, 1, 1⟩) (dayNum ⟨2024, 1, 5⟩) 3 ∧
      (∃ k : Nat, nextByDays (dayNum ⟨2024, 1, 1⟩) (dayNum ⟨2024, 1, 5⟩) 3
        = dayNum ⟨2024, 1, 1⟩ + k * 3) ∧
      (∀ j : Nat, dayNum ⟨2024, 1, 5⟩ < dayNum ⟨2024, 1, 1⟩ + j * 3 →
        nextByDays (dayNum ⟨2024, 1, 1⟩) (dayNum ⟨2024, 1, 5⟩) 3
          ≤ dayNum ⟨2024, 1, 1⟩ + j * 3)) :=
  ⟨by decide, by decide, by decide, by decide,
    claimC7_theorem taskC7 (dayNum ⟨2024, 1, 5⟩) 3 ⟨2024, 1, 1⟩
      (by decide) (by decide) (by decide)⟩

/-- Evaluation steps of goAddMonths on a day-28-or-less date: the month index
advances without day normalization. -/
theorem goAddMonths_small (t t2 : Int) (h : t + 1 = t2) :
    goAddMonths ⟨t, 2⟩ (posify 1) = ⟨t2, 2⟩ := by
  subst h
  show normMD (t + 1) 2 = ⟨t + 1, 2⟩
  exact normMD_of_le _ _ (by norm_num)

/-- Concrete month-loop run: base 2024-01-31, now 2024-06-15, every 1 month.
The first AddDate step lands on Feb 31, which Go normalizes to Mar 2; from
then on the candidate stays on day 2 and the loop returns 2024-07-02. -/
theorem nextByMonths_c8_eval :
    nextByMonths (toMD ⟨2024, 1, 31⟩) (dayNum ⟨2024, 6, 15⟩) 1 = toMD ⟨2024, 7, 2⟩ := by
  have g1 : goAddMonths ⟨24288, 31⟩ (posify 1) = ⟨24290, 2⟩ := by
    show normMD 24289 31 = ⟨24290, 2⟩
    rw [normMD_step _ _ (by decide)]
    show normMD 24290 2 = ⟨24290, 2⟩
    exact normMD_of_le _ _ (by norm_num)
  show nextByMonthsAux 19889 1 ⟨24288, 31⟩ = ⟨24294, 2⟩
  rw [nextByMonthsAux_next 19889 1 _ _ (by decide) g1]
  rw [nextByMonthsAux_next 19889 1 _ _ (by decide) (goAddMonths_small 24290 24291 (by norm_num))]
  rw [nextByMonthsAux_next 19889 1 _ _ (by decide) (goAddMonths_small 24291 24292 (by norm_num))]
  rw [nextByMonthsAux_next 19889 1 _ _ (by decide) (goAddMonths_small 24292 24293 (by norm_num))]
  rw [nextByMonthsAux_next 19889 1 _ _ (by decide) (goAddMonths_small 24293 24294 (by norm_num))]
  exact nextByMonthsAux_done 19889 1 _ (by decide)

/-- C8 counterexample: base 2024-01-31, rule every 1 month, now 2024-06-15.
The result is 2024-07-02: its day-of-month is 2, although the base day-of-month
is 31 and day 31 exists in the result month July (which has 31 days).  So the
stepping does not preserve the day-of-month in every step where that day
exists in the target month. -/
theorem claimC8_counterexample :
    nextByMonths (toMD ⟨2024, 1, 31⟩) (dayNum ⟨2024, 6, 15⟩) 1 = toMD ⟨2024, 7, 2⟩ ∧
    (toMD ⟨2024, 1, 31⟩).d = 31 ∧
    daysInMonthIdx (toMD ⟨2024, 7, 2⟩).t = 31 ∧
    (toMD ⟨2024, 7, 2⟩).d ≠ 31 :=
  ⟨nextByMonths_c8_eval, by decide, by decide, by decide⟩

/-- C8 amended: nextByMonths steps the previous candidate through Go AddDate
month normalization, so the day-of-month can drift once a step overflows the
target month; when the base day-of-month is at most 28 no overflow is
possible, every candidate keeps the base day-of-month, the month index
advances in multiples of the (positivized) interval, and the result is
strictly after now. -/
theorem claimC8_theorem (b : MDate) (now e : Int) (h1 : 1 ≤ b.d) (h2 : b.d ≤ 28) :
    (nextByMonths b now e).d = b.d ∧
    now < dayNumMD (nextByMonths b now e) ∧
    (∃ k : Nat, (nextByMonths b now e).t = b.t + k * posify e) := by
  unfold nextByMonths
  have hp := nextByMonthsAux_preserve now (posify e) b h1 h2
  rw [posify_idem] at hp
  exact ⟨hp.1, nextByMonthsAux_gt now (posify e) b, hp.2⟩

/-- C8 witness: base 2024-01-15 (day 15 ≤ 28), every 1 month; the amended
theorem applies, so the result keeps day-of-month 15. -/
theorem claimC8_witness :
    1 ≤ (toMD ⟨2024, 1, 15⟩).d ∧ (toMD ⟨2024, 1, 15⟩).d ≤ 28 ∧
    ((nextByMonths (toMD ⟨2024, 1, 15⟩) (dayNum ⟨2024, 3, 20⟩) 1).d = (toMD ⟨2024, 1, 15⟩).d ∧
      dayNum ⟨2024, 3, 20⟩ < dayNumMD (nextByMonths (toMD ⟨2024, 1, 15⟩) (dayNum ⟨2024, 3, 20⟩) 1) ∧
      (∃ k : Nat, (nextByMonths (toMD ⟨2024, 1, 15⟩) (dayNum ⟨2024, 3, 20⟩) 1).t
        = (toMD ⟨2024, 1, 15⟩).t + k * posify 1)) :=
  ⟨by decide, by decide,
    claimC8_theorem (toMD ⟨2024, 1, 15⟩) (dayNum ⟨2024, 3, 20⟩) 1 (by decide) (by decide)⟩

/-- C10: the three stepping loops always terminate with a candidate strictly
after now, for every input (a non-positive every is replaced by 1 inside
posify, and each iteration advances the candidate by at least a week or a
month, which is what the termination measures of the three loop functions
encode). -/
theorem claimC10_theorem (base : Int) (b b2 : MDate) (now every wd : Int) :
    now < nextWeeklyByWeekday base now every wd ∧
    now < dayNumMD (nextByMonths b now every) ∧
    now < nextMonthlyByWeekday b2 now every wd :=
  ⟨nextWeeklyByWeekday_gt base now every wd, nextByMonths_gt b now every,
    nextMonthlyByWeekday_gt b2 now every wd⟩

/-! ## Storage model (internal/storage)

The relational store is modelled as lists of rows: `tasks` (the tasks table;
the `topics` field of a stored row is not table data — as in the Go struct it
is only populated on fetch), `taskTopics` (the task_topics association table,
primary key (task_id, topic)), `topicNotes` (the topic_notes table, primary
key topic) and the AUTOINCREMENT counter `nextId`.  The trash directory is a
list of named snapshot files.  SQL errors are not modelled; the only injected
failures are snapshot-file writes (`moveToTrashGo`) and row inserts during
restore (`restoreLoop`), which are the failure points the claims are about. -/

structure DB where
  tasks : List Task
  taskTopics : List (Int × List Char)
  topicNotes : List (List Char × List Char)
  nextId : Int
deriving DecidableEq

/-- The snapshot file name `<timestamp>-<id>-<batch index>-<slug>.json`. -/
structure TrashName where
  stamp : Int
  id : Int
  idx : Nat
  slug : List Char
deriving DecidableEq

/-- A file in the trash directory: its name and the serialized payload
`{deleted_at, task}` (the task embeds its topics). -/
structure TrashFile where
  name : TrashName
  deletedAt : Int
  task : Task
deriving DecidableEq

/-- The storage.TrashEntry record: path, deleted-at and embedded task. -/
structure TrashEntry where
  path : TrashName
  deletedAt : Int
  task : Task
deriving DecidableEq

/-- A store state: database plus trash directory. -/
structure St where
  db : DB
  fs : List TrashFile
deriving DecidableEq

/-- Model of strings.Split(raw, ",") — on an empty string it yields one empty
field, exactly like Go. -/
def splitOnComma : List Char → List (List Char)
  | [] => [[]]
  | c :: cs =>
    if c = ',' then [] :: splitOnComma cs
    else
      match splitOnComma cs with
      | [] => [[c]]
      | p :: ps => (c :: p) :: ps

/-- Model of normalizeTopics (storage): trim each topic, drop empties, drop
duplicates keeping first occurrences, via the seen set of the Go loop. -/
def normTopicsAux (seen : List (List Char)) : List (List Char) → List (List Char)
  | [] => []
  | tp :: rest =>
    let t := trim tp
    if t = [] then normTopicsAux seen rest
    else if t ∈ seen then normTopicsAux seen rest
    else t :: normTopicsAux (t :: seen) rest

def normalizeTopics (l : List (List Char)) : List (List Char) := normTopicsAux [] l

/-- Model of splitTopics (storage). -/
def splitTopics (raw : List Char) : List (List Char) := normalizeTopics (splitOnComma raw)

/-- Byte-order comparison backing SQLite ORDER BY topic on ASCII text. -/
def strLeB : List Char → List Char → Bool
  | [], _ => true
  | _ :: _, [] => false
  | a :: as, b :: bs =>
    if a.toNat < b.toNat then true
    else if b.toNat < a.toNat then false
    else strLeB as bs

def sortTopics (l : List (List Char)) : List (List Char) := l.mergeSort strLeB

/-- Topics of a task id in association-row order. -/
def topicsOfRows (rows : List (Int × List Char)) (id : Int) : List (List Char) :=
  (rows.filter (fun r => decide (r.1 = id))).map (fun r => r.2)

def topicsOfTask (db : DB) (id : Int) : List (List Char) := topicsOfRows db.taskTopics id

/-- Model of fetchTopicsForTask: SELECT topic ... ORDER BY topic. -/
def fetchTopicsForTask (db : DB) (id : Int) : List (List Char) :=
  sortTopics (topicsOfTask db id)

def getTaskRow (db : DB) (id : Int) : Option Task :=
  db.tasks.find? (fun u => decide (u.id = id))

/-- Model of fetchTaskByID: the row plus its sorted topics; none models the
sql.ErrNoRows error. -/
def fetchTaskByID (db : DB) (id : Int) : Option Task :=
  (getTaskRow db id).map (fun u => { u with topics := fetchTopicsForTask db id })

/-- Model of fetchDoneTasks (rows with done = 1, topics attached). -/
def fetchDoneTasks (db : DB) : List Task :=
  (db.tasks.filter (fun u => u.done)).map (fun u => { u with topics := fetchTopicsForTask db u.id })

/-- Sequential INSERT OR IGNORE of (id, topic) pairs, each checked against the
table as extended by the earlier inserts. -/
def insertIgnoreRows (rows : List (Int × List Char)) (id : Int) :
    List (List Char) → List (Int × List Char)
  | [] => rows
  | tp :: rest =>
    if (id, tp) ∈ rows then insertIgnoreRows rows id rest
    else insertIgnoreRows (rows ++ [(id, tp)]) id rest

/-- Model of setTaskTopicsTx: normalize, delete all rows of the task, insert
the new associations. -/
def setTaskTopicsTxRows (rows : List (Int × List Char)) (id : Int)
    (topics : List (List Char)) : List (Int × List Char) :=
  insertIgnoreRows (rows.filter (fun r => decide (¬ r.1 = id))) id (normalizeTopics topics)

/-- Model of UpdateTaskMetadata: one transaction updating the row fields and
doing the full topic replace. -/
def updateTaskMetadata (db : DB) (id : Int) (topic tags : List Char) (priority : Int)
    (due start : Option Date) (recurring : Bool) : DB :=
  let topics := splitTopics topic
  { db with
    tasks := db.tasks.map (fun u =>
      if u.id = id then
        { u with tags := tags, priority := priority, due := due, start := start,
                 recurring := recurring }
      else u),
    taskTopics := setTaskTopicsTxRows db.taskTopics id topics }

/-- Model of TopicNote: trim the key, empty means no note, missing row means
empty note. -/
def topicNote (db : DB) (topic : List Char) : List Char :=
  let k := trim topic
  if k = [] then []
  else
    match db.topicNotes.find? (fun r => decide (r.1 = k)) with
    | some r => r.2
    | none => []

/-- INSERT ... ON CONFLICT(topic) DO UPDATE SET notes. -/
def upsertNoteRows (rows : List (List Char × List Char)) (k v : List Char) :
    List (List Char × List Char) :=
  if rows.any (fun r => decide (r.1 = k)) then
    rows.map (fun r => if r.1 = k then (k, v) else r)
  else rows ++ [(k, v)]

/-- Model of UpdateTopicNote; none models the empty-topic error. -/
def updateTopicNote (db : DB) (topic notes : List Char) : Option DB :=
  let k := trim topic
  if k = [] then none
  else some { db with topicNotes := upsertNoteRows db.topicNotes k notes }

/-- Model of DeleteTopicNote (no-op on an empty trimmed name). -/
def deleteTopicNote (db : DB) (topic : List Char) : DB :=
  let k := trim topic
  if k = [] then db
  else { db with topicNotes := db.topicNotes.filter (fun r => decide (¬ r.1 = k)) }

def sepLit : List Char := ['\n', '\n', '-', '-', '-', '\n', '\n']

/-- Model of mergeNotes (storage). -/
def mergeNotes (primary extra : List Char) : List Char :=
  if trim primary = [] then extra
  else if trim extra = [] then primary
  else primary ++ sepLit ++ extra

/-- Model of renameTopicNote; none models a propagated error (empty new
name in UpdateTopicNote). -/
def renameTopicNote (db : DB) (oldName newName : List Char) : Option DB :=
  let o := trim oldName
  let n := trim newName
  if o = [] ∨ o = n then some db
  else
    let oldNote := topicNote db o
    if trim oldNote = [] then some (deleteTopicNote db o)
    else
      let merged := mergeNotes (topicNote db n) oldNote
      match updateTopicNote db n merged with
      | none => none
      | some db1 => some (deleteTopicNote db1 o)

/-- Model of RenameTopic: in one transaction re-point the associations
(insert-or-ignore then delete), then merge the notes; the association change
survives a note-merge error, as in the code. -/
def renameTopic (db : DB) (oldName newName : List Char) : DB × Int × Bool :=
  let oldRows := db.taskTopics.filter (fun r => decide (r.2 = oldName))
  let rows1 := oldRows.foldl
    (fun acc r => if (r.1, newName) ∈ acc then acc else acc ++ [(r.1, newName)]) db.taskTopics
  let affected := (rows1.filter (fun r => decide (r.2 = oldName))).length
  let db1 := { db with taskTopics := rows1.filter (fun r => decide (¬ r.2 = oldName)) }
  match renameTopicNote db1 oldName newName with
  | none => (db1, affected, false)
  | some db2 => (db2, affected, true)

/-- Model of DeleteTopic: delete the associations (count them), then the
note; tasks are untouched. -/
def deleteTopic (db : DB) (topic : List Char) : DB × Int :=
  let affected := (db.taskTopics.filter (fun r => decide (r.2 = topic))).length
  let db1 := { db with taskTopics := db.taskTopics.filter (fun r => decide (¬ r.2 = topic)) }
  (deleteTopicNote db1 topic, affected)

/-- Model of sanitizeFilename (storage). -/
def sanitizeFilename (title : List Char) : List Char :=
  let t := lower (trim title)
  let t := t.map (fun c => if c = ' ' then '-' else c)
  let t := t.filter (fun c =>
    decide (('a' ≤ c ∧ c ≤ 'z') ∨ ('0' ≤ c ∧ c ≤ '9') ∨ c = '-' ∨ c = '_'))
  let t := if t = [] then ['t', 'a', 's', 'k'] else t
  t.take 48

/-- os.WriteFile: create or truncate the file of that name. -/
def fsWrite (fs : List TrashFile) (f : TrashFile) : List TrashFile :=
  fs.filter (fun g => decide (¬ g.name = f.name)) ++ [f]

/-- Write loop of moveToTrash: file `i` is written for the i-th task of the
batch; `ok i` injects a write failure, which aborts the loop, reporting
failure but keeping the files already written. -/
def moveToTrashLoop (ok : Nat → Bool) (now : Int) :
    Nat → List TrashFile → List Task → List TrashFile × Bool
  | _, fs, [] => (fs, true)
  | i, fs, t :: rest =>
    if ok i then
      moveToTrashLoop ok now (i + 1)
        (fsWrite fs ⟨⟨now, t.id, i, sanitizeFilename t.title⟩, now, t⟩) rest
    else (fs, false)

/-- Model of moveToTrash (an empty batch writes nothing and succeeds). -/
def moveToTrashGo (ok : Nat → Bool) (fs : List TrashFile) (now : Int)
    (tasks : List Task) : List TrashFile × Bool :=
  if tasks.isEmpty then (fs, true) else moveToTrashLoop ok now 0 fs tasks

/-- Model of DeleteTask: fetch the task with topics, snapshot it, and only on
snapshot success delete the association rows and the task row. -/
def deleteTask (ok : Nat → Bool) (st : St) (now : Int) (id : Int) : St × Bool :=
  match fetchTaskByID st.db id with
  | none => (st, false)
  | some task =>
    let mt := moveToTrashGo ok st.fs now [task]
    if mt.2 then
      ({ db := { st.db with
           tasks := st.db.tasks.filter (fun u => decide (¬ u.id = id)),
           taskTopics := st.db.taskTopics.filter (fun r => decide (¬ r.1 = id)) },
         fs := mt.1 }, true)
    else ({ st with fs := mt.1 }, false)

/-- Model of DeleteDoneTasks: snapshot the done batch, and only on success
delete their association rows and all done task rows, returning the count. -/
def deleteDoneTasks (ok : Nat → Bool) (st : St) (now : Int) : St × Int × Bool :=
  let done := fetchDoneTasks st.db
  let mt := if done.isEmpty then (st.fs, true) else moveToTrashGo ok st.fs now done
  if mt.2 then
    ({ db := { st.db with
         tasks := st.db.tasks.filter (fun u => !u.done),
         taskTopics := st.db.taskTopics.filter
           (fun r => decide (¬ r.1 ∈ done.map Task.id)) },
       fs := mt.1 },
     ((st.db.tasks.filter (fun u => u.done)).length : Int), true)
  else ({ st with fs := mt.1 }, 0, false)

/-- One row insert of RestoreTrash: a fresh id from AUTOINCREMENT, the
embedded fields (completed_at is not in the INSERT column list, topics live in
task_topics), then setTaskTopicsTx for the embedded topics. -/
def restoreOne (db : DB) (e : TrashEntry) : DB :=
  let newId := db.nextId
  { db with
    tasks := db.tasks ++ [{ e.task with id := newId, topics := [], completedAt := none }],
    taskTopics := setTaskTopicsTxRows db.taskTopics newId e.task.topics,
    nextId := db.nextId + 1 }

/-- Transaction body of RestoreTrash; `insOk i` injects a failure of the i-th
insert, which rolls the whole transaction back (none). -/
def restoreLoop (insOk : Nat → Bool) : Nat → DB → List TrashEntry → Option DB
  | _, db, [] => some db
  | i, db, e :: rest => if insOk i then restoreLoop insOk (i + 1) (restoreOne db e) rest else none

/-- Model of RestoreTrash: all inserts in one transaction; only after the
commit are the snapshot files removed. -/
def restoreTrash (insOk : Nat → Bool) (st : St) (entries : List TrashEntry) : St × Bool :=
  if entries.isEmpty then (st, true)
  else
    match restoreLoop insOk 0 st.db entries with
    | none => (st, false)
    | some db2 =>
      ({ db := db2,
         fs := st.fs.filter (fun f => decide (¬ f.name ∈ entries.map TrashEntry.path)) }, true)

/-! ## Support lemmas on strings and rows -/

theorem dropWhile_head_false {p : Char → Bool} (l : List Char)
    (h : ∀ c, l.head? = some c → p c = false) : l.dropWhile p = l := by
  cases l with
  | nil => rfl
  | cons a rest => simp [List.dropWhile, h a rfl]

theorem head?_dropWhile {p : Char → Bool} (l : List Char) (c : Char)
    (h : (l.dropWhile p).head? = some c) : p c = false := by
  induction l with
  | nil => cases h
  | cons a rest ih =>
    by_cases hp : p a
    · simp only [List.dropWhile, hp] at h
      exact ih h
    · simp only [List.dropWhile, hp] at h
      simp only [Bool.false_eq_true, if_false, List.head?_cons, Option.some.injEq] at h
      rw [← h]
      simp [hp]

theorem head?_of_init {v u : List Char} (h : v <+: u) (hv : v ≠ []) : v.head? = u.head? := by
  obtain ⟨w, rfl⟩ := h
  cases v with
  | nil => cases hv rfl
  | cons a r => rfl

theorem revDropRev_init (p : Char → Bool) (l : List Char) :
    ((l.reverse.dropWhile p).reverse) <+: l := by
  have h1 : l.reverse.dropWhile p <:+ l.reverse := List.dropWhile_suffix p
  have h2 : (l.reverse.dropWhile p).reverse <+: l.reverse.reverse := by
    exact List.reverse_prefix.mpr h1
  rwa [List.reverse_reverse] at h2

theorem trim_idem (s : List Char) : trim (trim s) = trim s := by
  unfold trim
  have L1 : ((((s.dropWhile isSpaceChar).reverse.dropWhile isSpaceChar).reverse).dropWhile
      isSpaceChar) = (((s.dropWhile isSpaceChar).reverse.dropWhile isSpaceChar).reverse) := by
    apply dropWhile_head_false
    intro c hc
    have hvne : (((s.dropWhile isSpaceChar).reverse.dropWhile isSpaceChar).reverse) ≠ [] := by
      intro h0
      rw [h0] at hc
      cases hc
    have hpre := revDropRev_init isSpaceChar (s.dropWhile isSpaceChar)
    have hh := head?_of_init hpre hvne
    rw [hh] at hc
    exact head?_dropWhile s c hc
  rw [L1, List.reverse_reverse, List.dropWhile_idempotent]

theorem mem_topicsOfRows (rows : List (Int × List Char)) (id : Int) (x : List Char) :
    x ∈ topicsOfRows rows id ↔ (id, x) ∈ rows := by
  unfold topicsOfRows
  simp only [List.mem_map, List.mem_filter, decide_eq_true_eq]
  constructor
  · rintro ⟨r, ⟨hr, hid⟩, hx⟩
    have : r = (id, x) := by
      cases r
      simp_all
    rwa [this] at hr
  · intro h
    exact ⟨(id, x), ⟨h, rfl⟩, rfl⟩

theorem mem_insertIgnoreRows (rows : List (Int × List Char)) (id : Int)
    (tps : List (List Char)) (j : Int) (x : List Char) :
    (j, x) ∈ insertIgnoreRows rows id tps ↔ ((j, x) ∈ rows ∨ (j = id ∧ x ∈ tps)) := by
  induction tps generalizing rows with
  | nil => simp [insertIgnoreRows]
  | cons tp rest ih =>
    unfold insertIgnoreRows
    by_cases hmem : (id, tp) ∈ rows
    · rw [if_pos hmem, ih]
      constructor
      · rintro (h | ⟨h1, h2⟩)
        · exact Or.inl h
        · exact Or.inr ⟨h1, List.mem_cons_of_mem _ h2⟩
      · rintro (h | ⟨h1, h2⟩)
        · exact Or.inl h
        · rcases List.mem_cons.mp h2 with heq | h3
          · subst h1
            subst heq
            exact Or.inl hmem
          · exact Or.inr ⟨h1, h3⟩
    · rw [if_neg hmem, ih]
      constructor
      · rintro (h | ⟨h1, h2⟩)
        · rcases List.mem_append.mp h with h3 | h3
          · exact Or.inl h3
          · have h4 := List.mem_singleton.mp h3
            have hj : j = id := congrArg Prod.fst h4
            have hx : x = tp := congrArg Prod.snd h4
            exact Or.inr ⟨hj, by rw [hx]; exact List.mem_cons_self _ _⟩
        · exact Or.inr ⟨h1, List.mem_cons_of_mem _ h2⟩
      · rintro (h | ⟨h1, h2⟩)
        · exact Or.inl (List.mem_append_left _ h)
        · rcases List.mem_cons.mp h2 with heq | h3
          · subst h1
            subst heq
            exact Or.inl (List.mem_append_right _ (List.mem_singleton.mpr rfl))
          · exact Or.inr ⟨h1, h3⟩

theorem mem_normAux (seen : List (List Char)) (l : List (List Char)) (x : List Char) :
    x ∈ normTopicsAux seen l ↔ (x ∉ seen ∧ x ≠ [] ∧ ∃ y ∈ l, trim y = x) := by
  induction l generalizing seen with
  | nil => simp [normTopicsAux]
  | cons tp rest ih =>
    unfold normTopicsAux
    by_cases h0 : trim tp = []
    · rw [if_pos h0, ih]
      constructor
      · rintro ⟨hs, hne, y, hy, hty⟩
        exact ⟨hs, hne, y, List.mem_cons_of_mem _ hy, hty⟩
      · rintro ⟨hs, hne, y, hy, hty⟩
        rcases List.mem_cons.mp hy with heq | hy2
        · rw [heq] at hty
          exact absurd (h0.symm.trans hty) (Ne.symm hne)
        · exact ⟨hs, hne, y, hy2, hty⟩
    · rw [if_neg h0]
      by_cases hseen : trim tp ∈ seen
      · rw [if_pos hseen, ih]
        constructor
        · rintro ⟨hs, hne, y, hy, hty⟩
          exact ⟨hs, hne, y, List.mem_cons_of_mem _ hy, hty⟩
        · rintro ⟨hs, hne, y, hy, hty⟩
          rcases List.mem_cons.mp hy with heq | hy2
          · rw [heq] at hty
            rw [← hty] at hs
            exact absurd hseen hs
          · exact ⟨hs, hne, y, hy2, hty⟩
      · rw [if_neg hseen]
        rw [List.mem_cons, ih]
        constructor
        · rintro (rfl | ⟨hs, hne, y, hy, hty⟩)
          · exact ⟨hseen, h0, tp, List.mem_cons_self _ _, rfl⟩
          · have hs2 : x ∉ seen := fun hx => hs (List.mem_cons_of_mem _ hx)
            exact ⟨hs2, hne, y, List.mem_cons_of_mem _ hy, hty⟩
        · rintro ⟨hs, hne, y, hy, hty⟩
          rcases List.mem_cons.mp hy with heq | hy2
          · rw [heq] at hty
            exact Or.inl hty.symm
          · by_cases hx : x = trim tp
            · exact Or.inl hx
            · refine Or.inr ⟨?_, hne, y, hy2, hty⟩
              intro hx2
              rcases List.mem_cons.mp hx2 with h | h
              · exact hx h
              · exact hs h

theorem mem_normalizeTopics (l : List (List Char)) (x : List Char) :
    x ∈ normalizeTopics l ↔ (x ≠ [] ∧ ∃ y ∈ l, trim y = x) := by
  unfold normalizeTopics
  rw [mem_normAux]
  simp

theorem normAux_nodup (seen : List (List Char)) (l : List (List Char)) :
    (normTopicsAux seen l).Nodup := by
  induction l generalizing seen with
  | nil => simp [normTopicsAux]
  | cons tp rest ih =>
    unfold normTopicsAux
    by_cases h0 : trim tp = []
    · rw [if_pos h0]
      exact ih seen
    · rw [if_neg h0]
      by_cases hseen : trim tp ∈ seen
      · rw [if_pos hseen]
        exact ih seen
      · rw [if_neg hseen]
        refine List.Nodup.cons ?_ (ih (trim tp :: seen))
        intro hmem
        have hh := (mem_normAux _ _ _).mp hmem
        exact hh.1 (List.mem_cons_self _ _)

theorem normAux_of_clean (seen : List (List Char)) (l : List (List Char))
    (hc : ∀ x ∈ l, trim x = x ∧ x ≠ []) (hnd : l.Nodup) (hdis : ∀ x ∈ l, x ∉ seen) :
    normTopicsAux seen l = l := by
  induction l generalizing seen with
  | nil => rfl
  | cons tp rest ih =>
    unfold normTopicsAux
    obtain ⟨htp, hne⟩ := hc tp (List.mem_cons_self _ _)
    rw [htp, if_neg hne, if_neg (hdis tp (List.mem_cons_self _ _))]
    congr 1
    apply ih
    · intro x hx
      exact hc x (List.mem_cons_of_mem _ hx)
    · exact (List.nodup_cons.mp hnd).2
    · intro x hx hmem
      rcases List.mem_cons.mp hmem with heq | h
      · rw [heq] at hx
        exact (List.nodup_cons.mp hnd).1 hx
      · exact hdis x (List.mem_cons_of_mem _ hx) h

theorem normalizeTopics_clean (l : List (List Char)) :
    ∀ x ∈ normalizeTopics l, trim x = x ∧ x ≠ [] := by
  intro x hx
  obtain ⟨hne, y, hmem, hty⟩ := (mem_normalizeTopics l x).mp hx
  exact ⟨by rw [← hty, trim_idem], hne⟩

theorem normalizeTopics_idem (l : List (List Char)) :
    normalizeTopics (normalizeTopics l) = normalizeTopics l := by
  exact normAux_of_clean [] _ (normalizeTopics_clean l) (normAux_nodup [] l) (by simp)

theorem topicsOfRows_append (a b : List (Int × List Char)) (id : Int) :
    topicsOfRows (a ++ b) id = topicsOfRows a id ++ topicsOfRows b id := by
  unfold topicsOfRows
  rw [List.filter_append, List.map_append]

theorem topicsOfRows_delete (rows : List (Int × List Char)) (id : Int) :
    topicsOfRows (rows.filter (fun r => decide (¬ r.1 = id))) id = [] := by
  induction rows with
  | nil => rfl
  | cons r rest ih =>
    by_cases h : r.1 = id
    · simp only [topicsOfRows, List.filter_cons, h] at ih ⊢
      simp [ih]
    · simp only [topicsOfRows, List.filter_cons, h] at ih ⊢
      simp [h, ih]

theorem topicsOfRows_filter_ne (rows : List (Int × List Char)) (id j : Int) (hne : j ≠ id) :
    topicsOfRows (rows.filter (fun r => decide (¬ r.1 = id))) j = topicsOfRows rows j := by
  unfold topicsOfRows
  rw [List.filter_filter]
  congr 1
  apply List.filter_congr
  intro a _
  by_cases h : a.1 = j
  · have h2 : ¬ a.1 = id := by
      rw [h]
      exact fun hh => hne hh
    simp only [h, h2, decide_not]
    simp [hne]
  · simp [h]

theorem topicsOfRows_insertIgnore_exact (rows0 : List (Int × List Char)) (id : Int)
    (tps : List (List Char)) (hnd : tps.Nodup) (hdis : ∀ tp ∈ tps, (id, tp) ∉ rows0) :
    topicsOfRows (insertIgnoreRows rows0 id tps) id = topicsOfRows rows0 id ++ tps := by
  induction tps generalizing rows0 with
  | nil => simp [insertIgnoreRows]
  | cons tp rest ih =>
    unfold insertIgnoreRows
    rw [if_neg (hdis tp (List.mem_cons_self _ _))]
    rw [ih (rows0 ++ [(id, tp)]) (List.nodup_cons.mp hnd).2 ?hdis2]
    case hdis2 =>
      intro tp2 htp2 hmem
      rcases List.mem_append.mp hmem with h | h
      · exact hdis tp2 (List.mem_cons_of_mem _ htp2) h
      · have h4 := List.mem_singleton.mp h
        have hx : tp2 = tp := congrArg Prod.snd h4
        exact (List.nodup_cons.mp hnd).1 (hx ▸ htp2)
    rw [topicsOfRows_append]
    have hone : topicsOfRows [(id, tp)] id = [tp] := by
      simp [topicsOfRows]
    rw [hone, List.append_assoc]
    rfl

theorem topicsOfRows_insertIgnore_ne (rows0 : List (Int × List Char)) (id : Int)
    (tps : List (List Char)) (j : Int) (hne : j ≠ id) :
    topicsOfRows (insertIgnoreRows rows0 id tps) j = topicsOfRows rows0 j := by
  induction tps generalizing rows0 with
  | nil => rfl
  | cons tp rest ih =>
    unfold insertIgnoreRows
    by_cases hmem : (id, tp) ∈ rows0
    · rw [if_pos hmem]
      exact ih rows0
    · rw [if_neg hmem, ih (rows0 ++ [(id, tp)]), topicsOfRows_append]
      have hone : topicsOfRows [(id, tp)] j = [] := by
        simp [topicsOfRows]
        intro hh
        exact absurd hh.symm hne
      rw [hone, List.append_nil]

theorem normalizeTopics_nodup (l : List (List Char)) : (normalizeTopics l).Nodup :=
  normAux_nodup [] l

theorem setTaskTopicsTxRows_self (rows : List (Int × List Char)) (id : Int)
    (tps : List (List Char)) :
    topicsOfRows (setTaskTopicsTxRows rows id tps) id = normalizeTopics tps := by
  unfold setTaskTopicsTxRows
  rw [topicsOfRows_insertIgnore_exact (rows.filter (fun r => decide (¬ r.1 = id))) id
    (normalizeTopics tps) (normalizeTopics_nodup tps) ?hdis]
  case hdis =>
    intro tp _ hmem
    rw [List.mem_filter] at hmem
    simp at hmem
  rw [topicsOfRows_delete]
  rfl

theorem setTaskTopicsTxRows_other (rows : List (Int × List Char)) (id : Int)
    (tps : List (List Char)) (j : Int) (hne : j ≠ id) :
    topicsOfRows (setTaskTopicsTxRows rows id tps) j = topicsOfRows rows j := by
  unfold setTaskTopicsTxRows
  rw [topicsOfRows_insertIgnore_ne _ _ _ _ hne, topicsOfRows_filter_ne _ _ _ hne]

/-! ## Claims C5 and C6 -/

/-- C5: after UpdateMetadata the topic rows of the task are exactly the
trimmed, deduplicated, non-empty comma fields of the CSV (full replace: no
prior topic survives unless re-listed), and topic rows of every other task
are untouched. -/
theorem claimC5_theorem (db : DB) (id : Int) (csv tags : List Char) (priority : Int)
    (due start : Option Date) (recurring : Bool) :
    topicsOfTask (updateTaskMetadata db id csv tags priority due start recurring) id
      = splitTopics csv ∧
    (∀ j : Int, j ≠ id →
      topicsOfTask (updateTaskMetadata db id csv tags priority due start recurring) j
        = topicsOfTask db j) := by
  constructor
  · show topicsOfRows (setTaskTopicsTxRows db.taskTopics id (splitTopics csv)) id
      = splitTopics csv
    rw [setTaskTopicsTxRows_self]
    unfold splitTopics
    exact normalizeTopics_idem _
  · intro j hne
    show topicsOfRows (setTaskTopicsTxRows db.taskTopics id (splitTopics csv)) j
      = topicsOfRows db.taskTopics j
    exact setTaskTopicsTxRows_other _ _ _ _ hne

/-- C5 witness: replacing topics {a, b} of task 1 with the CSV `b` leaves
exactly {b}. -/
theorem claimC5_witness :
    topicsOfTask (updateTaskMetadata
        ⟨[{ baseTask with id := 1 }], [(1, ['a']), (1, ['b'])], [], 2⟩
        1 ['b'] [] 0 none none false) 1 = splitTopics ['b'] ∧
    topicsOfTask (updateTaskMetadata
        ⟨[{ baseTask with id := 1 }], [(1, ['a']), (1, ['b'])], [], 2⟩
        1 ['b'] [] 0 none none false) 1 = [['b']] ∧
    (∀ j : Int, j ≠ 1 →
      topicsOfTask (updateTaskMetadata
          ⟨[{ baseTask with id := 1 }], [(1, ['a']), (1, ['b'])], [], 2⟩
          1 ['b'] [] 0 none none false) j
        = topicsOfTask ⟨[{ baseTask with id := 1 }], [(1, ['a']), (1, ['b'])], [], 2⟩ j) :=
  ⟨(claimC5_theorem ⟨[{ baseTask with id := 1 }], [(1, ['a']), (1, ['b'])], [], 2⟩
      1 ['b'] [] 0 none none false).1,
   by decide,
   (claimC5_theorem ⟨[{ baseTask with id := 1 }], [(1, ['a']), (1, ['b'])], [], 2⟩
      1 ['b'] [] 0 none none false).2⟩

theorem deleteTopicNote_fix (db : DB) (topic : List Char) :
    (deleteTopicNote db topic).tasks = db.tasks ∧
    (deleteTopicNote db topic).taskTopics = db.taskTopics ∧
    (deleteTopicNote db topic).nextId = db.nextId := by
  unfold deleteTopicNote
  dsimp only
  split
  · exact ⟨rfl, rfl, rfl⟩
  · exact ⟨rfl, rfl, rfl⟩

/-- C6: DeleteTopic removes exactly the association rows of that topic,
removes the note row keyed by the trimmed topic name, and leaves the live
tasks table unchanged (no task is deleted or trashed). -/
theorem claimC6_theorem (db : DB) (topic : List Char) (h : trim topic ≠ []) :
    (deleteTopic db topic).1.tasks = db.tasks ∧
    (∀ r : Int × List Char, r ∈ (deleteTopic db topic).1.taskTopics ↔
      (r ∈ db.taskTopics ∧ r.2 ≠ topic)) ∧
    (∀ r : List Char × List Char, r ∈ (deleteTopic db topic).1.topicNotes →
      r.1 ≠ trim topic) ∧
    (∀ r : List Char × List Char, r ∈ db.topicNotes → r.1 ≠ trim topic →
      r ∈ (deleteTopic db topic).1.topicNotes) := by
  unfold deleteTopic
  dsimp only
  refine ⟨?_, ?_, ?_, ?_⟩
  · rw [(deleteTopicNote_fix _ _).1]
  · intro r
    rw [(deleteTopicNote_fix _ _).2.1]
    simp [List.mem_filter]
  · intro r hr
    unfold deleteTopicNote at hr
    dsimp only at hr
    rw [if_neg h] at hr
    simp only [List.mem_filter, decide_eq_true_eq] at hr
    exact hr.2
  · intro r hr hne
    unfold deleteTopicNote
    dsimp only
    rw [if_neg h]
    simp only [List.mem_filter, decide_eq_true_eq]
    exact ⟨hr, hne⟩

/-- C6 witness: deleting topic `a` from a store where task 1 holds topics
{a, b} and `a` has a note. -/
theorem claimC6_witness :
    trim ['a'] ≠ [] ∧
    ((deleteTopic ⟨[{ baseTask with id := 1 }], [(1, ['a']), (1, ['b'])],
        [(['a'], ['n'])], 2⟩ ['a']).1.tasks = [{ baseTask with id := 1 }] ∧
      (∀ r : Int × List Char,
        r ∈ (deleteTopic ⟨[{ baseTask with id := 1 }], [(1, ['a']), (1, ['b'])],
          [(['a'], ['n'])], 2⟩ ['a']).1.taskTopics ↔
          (r ∈ [(1, ['a']), (1, ['b'])] ∧ r.2 ≠ ['a'])) ∧
      (∀ r : List Char × List Char,
        r ∈ (deleteTopic ⟨[{ baseTask with id := 1 }], [(1, ['a']), (1, ['b'])],
          [(['a'], ['n'])], 2⟩ ['a']).1.topicNotes → r.1 ≠ trim ['a']) ∧
      (∀ r : List Char × List Char, r ∈ [(['a'], ['n'])] → r.1 ≠ trim ['a'] →
        r ∈ (deleteTopic ⟨[{ baseTask with id := 1 }], [(1, ['a']), (1, ['b'])],
          [(['a'], ['n'])], 2⟩ ['a']).1.topicNotes)) :=
  ⟨by decide,
    claimC6_theorem ⟨[{ baseTask with id := 1 }], [(1, ['a']), (1, ['b'])],
      [(['a'], ['n'])], 2⟩ ['a'] (by decide)⟩

/-! ## Support lemmas for the topic-note store -/

theorem topicNote_trim (db : DB) (x : List Char) : topicNote db (trim x) = topicNote db x := by
  unfold topicNote
  rw [trim_idem]

theorem find?_cons_true {α : Type} (p : α → Bool) (a : α) (l : List α) (h : p a = true) :
    (a :: l).find? p = some a := by
  simp [List.find?_cons, h]

theorem find?_cons_false {α : Type} (p : α → Bool) (a : α) (l : List α) (h : p a = false) :
    (a :: l).find? p = l.find? p := by
  simp [List.find?_cons, h]

theorem find_append_no_left (rows : List (List Char × List Char)) (k v : List Char)
    (hno : ∀ r ∈ rows, ¬ r.1 = k) :
    (rows ++ [(k, v)]).find? (fun r => decide (r.1 = k)) = some (k, v) := by
  induction rows with
  | nil => simp [List.find?]
  | cons r rest ih =>
    rw [List.cons_append]
    rw [find?_cons_false _ _ _ (by simp [hno r (List.mem_cons_self _ _)])]
    exact ih (fun r2 h2 => hno r2 (List.mem_cons_of_mem _ h2))

theorem find_map_upsert (rows : List (List Char × List Char)) (k v : List Char)
    (hany : rows.any (fun r => decide (r.1 = k)) = true) :
    (rows.map (fun r => if r.1 = k then (k, v) else r)).find? (fun r => decide (r.1 = k))
      = some (k, v) := by
  induction rows with
  | nil => simp at hany
  | cons r rest ih =>
    rw [List.map_cons]
    by_cases h : r.1 = k
    · rw [if_pos h]
      exact find?_cons_true _ _ _ (by simp)
    · rw [if_neg h]
      rw [find?_cons_false _ _ _ (by simp [h])]
      apply ih
      simp only [List.any_cons, h] at hany
      simpa using hany

theorem find_upsert_self (rows : List (List Char × List Char)) (k v : List Char) :
    (upsertNoteRows rows k v).find? (fun r => decide (r.1 = k)) = some (k, v) := by
  unfold upsertNoteRows
  by_cases hany : rows.any (fun r => decide (r.1 = k)) = true
  · rw [if_pos hany]
    exact find_map_upsert rows k v hany
  · rw [if_neg hany]
    apply find_append_no_left
    intro r hr hk
    exact hany (List.any_eq_true.mpr ⟨r, hr, by simp [hk]⟩)

theorem find_upsert_ne (rows : List (List Char × List Char)) (k v k2 : List Char)
    (h : ¬ k2 = k) :
    (upsertNoteRows rows k v).find? (fun r => decide (r.1 = k2))
      = rows.find? (fun r => decide (r.1 = k2)) := by
  have h2 : ¬ k = k2 := fun hh => h hh.symm
  unfold upsertNoteRows
  by_cases hany : rows.any (fun r => decide (r.1 = k)) = true
  · rw [if_pos hany]
    clear hany
    induction rows with
    | nil => rfl
    | cons r rest ih =>
      rw [List.map_cons]
      by_cases hr : r.1 = k
      · rw [if_pos hr]
        have hr2 : ¬ r.1 = k2 := by
          rw [hr]
          exact h2
        rw [find?_cons_false _ _ _ (by simp [h2]), find?_cons_false _ _ _ (by simp [hr2])]
        exact ih
      · rw [if_neg hr]
        by_cases hr2 : r.1 = k2
        · rw [find?_cons_true _ _ _ (by simp [hr2]), find?_cons_true _ _ _ (by simp [hr2])]
        · rw [find?_cons_false _ _ _ (by simp [hr2]), find?_cons_false _ _ _ (by simp [hr2])]
          exact ih
  · rw [if_neg hany]
    clear hany
    induction rows with
    | nil => simp [List.find?, h2]
    | cons r rest ih =>
      rw [List.cons_append]
      by_cases hr2 : r.1 = k2
      · rw [find?_cons_true _ _ _ (by simp [hr2]), find?_cons_true _ _ _ (by simp [hr2])]
      · rw [find?_cons_false _ _ _ (by simp [hr2]), find?_cons_false _ _ _ (by simp [hr2])]
        exact ih

theorem find_filter_self (rows : List (List Char × List Char)) (k : List Char) :
    (rows.filter (fun r => decide (¬ r.1 = k))).find? (fun r => decide (r.1 = k)) = none := by
  rw [List.find?_eq_none]
  intro r hr
  rw [List.mem_filter] at hr
  simp only [decide_eq_true_eq] at hr
  simp [hr.2]

theorem find_filter_key_ne (rows : List (List Char × List Char)) (k k2 : List Char)
    (h : ¬ k2 = k) :
    (rows.filter (fun r => decide (¬ r.1 = k))).find? (fun r => decide (r.1 = k2))
      = rows.find? (fun r => decide (r.1 = k2)) := by
  induction rows with
  | nil => rfl
  | cons r rest ih =>
    rw [List.filter_cons]
    by_cases hk : r.1 = k
    · have hne2 : ¬ r.1 = k2 := by
        rw [hk]
        exact fun hh => h hh.symm
      rw [if_neg (by simp [hk])]
      rw [find?_cons_false _ _ _ (by simp [hne2])]
      exact ih
    · rw [if_pos (by simp [hk])]
      by_cases hr2 : r.1 = k2
      · rw [find?_cons_true _ _ _ (by simp [hr2]), find?_cons_true _ _ _ (by simp [hr2])]
      · rw [find?_cons_false _ _ _ (by simp [hr2]), find?_cons_false _ _ _ (by simp [hr2])]
        exact ih

theorem topicNote_delete_key (db : DB) (t x : List Char) (h : trim x = trim t) :
    topicNote (deleteTopicNote db t) x = [] := by
  unfold deleteTopicNote topicNote
  dsimp only
  by_cases ht : trim t = []
  · rw [if_pos ht]
    rw [if_pos (h.trans ht)]
  · rw [if_neg ht, if_neg (fun hx => ht (h ▸ hx))]
    rw [h, find_filter_self]

theorem topicNote_delete_ne (db : DB) (t x : List Char) (h : ¬ trim x = trim t) :
    topicNote (deleteTopicNote db t) x = topicNote db x := by
  unfold deleteTopicNote topicNote
  dsimp only
  by_cases ht : trim t = []
  · rw [if_pos ht]
  · rw [if_neg ht]
    by_cases hx : trim x = []
    · rw [if_pos hx, if_pos hx]
    · rw [if_neg hx, if_neg hx, find_filter_key_ne _ _ _ h]

theorem topicNote_upsert_key (ts : List Task) (tt : List (Int × List Char))
    (rows : List (List Char × List Char)) (ni : Int) (k v x : List Char)
    (hx : trim x = k) (hk : k ≠ []) :
    topicNote ⟨ts, tt, upsertNoteRows rows k v, ni⟩ x = v := by
  unfold topicNote
  dsimp only
  rw [hx, if_neg hk, find_upsert_self]

/-- Reduction of renameTopicNote in the merging case: the merged note is
upserted under the new name and the old note row is deleted. -/
theorem renameTopicNote_merge (db : DB) (oldName newName : List Char)
    (ho : trim oldName ≠ []) (hdiff : trim oldName ≠ trim newName)
    (hn : trim newName ≠ [])
    (hAne : trim (topicNote db oldName) ≠ []) :
    renameTopicNote db oldName newName = some (deleteTopicNote
      { db with
        topicNotes := upsertNoteRows db.topicNotes (trim newName)
          (mergeNotes (topicNote db newName) (topicNote db oldName)) }
      (trim oldName)) := by
  unfold renameTopicNote
  dsimp only
  rw [if_neg (by push_neg; exact ⟨ho, hdiff⟩)]
  rw [topicNote_trim db oldName]
  rw [if_neg hAne]
  rw [topicNote_trim db newName]
  unfold updateTopicNote
  dsimp only
  simp only [trim_idem]
  rw [if_neg hn]

theorem topicNote_set_taskTopics (db : DB) (X : List (Int × List Char)) (x : List Char) :
    topicNote { db with taskTopics := X } x = topicNote db x := rfl

/-- C9: RenameTopic with distinct (trimmed, non-empty) names, where the old
topic has a non-empty note A: the new topic ends with note
new-note ++ separator ++ A when its note was non-empty, with exactly A when
it was empty, and the old note row is gone. -/
theorem claimC9_theorem (db : DB) (oldT newT A : List Char)
    (ho : trim oldT ≠ []) (hn : trim newT ≠ []) (hdiff : trim oldT ≠ trim newT)
    (hA : topicNote db oldT = A) (hAne : trim A ≠ []) :
    (renameTopic db oldT newT).2.2 = true ∧
    (trim (topicNote db newT) ≠ [] →
      topicNote (renameTopic db oldT newT).1 newT = topicNote db newT ++ sepLit ++ A) ∧
    (trim (topicNote db newT) = [] →
      topicNote (renameTopic db oldT newT).1 newT = A) ∧
    topicNote (renameTopic db oldT newT).1 oldT = [] ∧
    (∀ r ∈ (renameTopic db oldT newT).1.topicNotes, r.1 ≠ trim oldT) := by
  unfold renameTopic
  dsimp only
  rw [renameTopicNote_merge _ oldT newT ho hdiff hn ?hAne2]
  case hAne2 =>
    rw [topicNote_set_taskTopics, hA]
    exact hAne
  dsimp only
  refine ⟨rfl, ?_, ?_, ?_, ?_⟩
  · intro hB
    rw [topicNote_delete_ne _ _ _ (by rw [trim_idem]; exact fun hh => hdiff hh.symm)]
    rw [topicNote_upsert_key _ _ _ _ _ _ _ rfl hn]
    show mergeNotes (topicNote db newT) (topicNote db oldT) = topicNote db newT ++ sepLit ++ A
    rw [hA]
    unfold mergeNotes
    rw [if_neg hB, if_neg hAne]
  · intro hB
    rw [topicNote_delete_ne _ _ _ (by rw [trim_idem]; exact fun hh => hdiff hh.symm)]
    rw [topicNote_upsert_key _ _ _ _ _ _ _ rfl hn]
    show mergeNotes (topicNote db newT) (topicNote db oldT) = A
    rw [hA]
    unfold mergeNotes
    rw [if_pos hB]
  · exact topicNote_delete_key _ _ _ (trim_idem oldT).symm
  · intro r hr
    unfold deleteTopicNote at hr
    dsimp only at hr
    simp only [trim_idem] at hr
    rw [if_neg ho] at hr
    simp only [List.mem_filter, decide_eq_true_eq] at hr
    exact hr.2

/-- C9 witness: topics `o` (note A) and `n` (note B) in the store; renaming
o to n merges the notes with the separator and removes the o row. -/
theorem claimC9_witness :
    trim ['o'] ≠ [] ∧ trim ['n'] ≠ [] ∧ trim ['o'] ≠ trim ['n'] ∧
    topicNote ⟨[], [], [(['o'], ['A']), (['n'], ['B'])], 1⟩ ['o'] = ['A'] ∧
    trim ['A'] ≠ [] ∧
    ((renameTopic ⟨[], [], [(['o'], ['A']), (['n'], ['B'])], 1⟩ ['o'] ['n']).2.2 = true ∧
      (trim (topicNote ⟨[], [], [(['o'], ['A']), (['n'], ['B'])], 1⟩ ['n']) ≠ [] →
        topicNote (renameTopic ⟨[], [], [(['o'], ['A']), (['n'], ['B'])], 1⟩ ['o'] ['n']).1 ['n']
          = topicNote ⟨[], [], [(['o'], ['A']), (['n'], ['B'])], 1⟩ ['n'] ++ sepLit ++ ['A']) ∧
      (trim (topicNote ⟨[], [], [(['o'], ['A']), (['n'], ['B'])], 1⟩ ['n']) = [] →
        topicNote (renameTopic ⟨[], [], [(['o'], ['A']), (['n'], ['B'])], 1⟩ ['o'] ['n']).1 ['n']
          = ['A']) ∧
      topicNote (renameTopic ⟨[], [], [(['o'], ['A']), (['n'], ['B'])], 1⟩ ['o'] ['n']).1 ['o']
        = [] ∧
      (∀ r ∈ (renameTopic ⟨[], [], [(['o'], ['A']), (['n'], ['B'])], 1⟩ ['o'] ['n']).1.topicNotes,
        r.1 ≠ trim ['o'])) :=
  ⟨by decide, by decide, by decide, by decide, by decide,
    claimC9_theorem ⟨[], [], [(['o'], ['A']), (['n'], ['B'])], 1⟩ ['o'] ['n'] ['A']
      (by decide) (by decide) (by decide) (by decide) (by decide)⟩

/-! ## Claim C1: snapshot failure aborts deletion -/

/-- C1: when writing the trash snapshot fails, DeleteTask and DeleteDoneTasks
report the error and delete no task row and no topic association. -/
theorem claimC1_theorem (ok : Nat → Bool) (st : St) (now id : Int) (t : Task)
    (hf : fetchTaskByID st.db id = some t)
    (hw : (moveToTrashGo ok st.fs now [t]).2 = false)
    (hwb : (moveToTrashGo ok st.fs now (fetchDoneTasks st.db)).2 = false) :
    ((deleteTask ok st now id).1.db.tasks = st.db.tasks ∧
      (deleteTask ok st now id).1.db.taskTopics = st.db.taskTopics ∧
      (deleteTask ok st now id).2 = false) ∧
    ((deleteDoneTasks ok st now).1.db.tasks = st.db.tasks ∧
      (deleteDoneTasks ok st now).1.db.taskTopics = st.db.taskTopics ∧
      (deleteDoneTasks ok st now).2.2 = false) := by
  constructor
  · unfold deleteTask
    rw [hf]
    dsimp only
    rw [hw]
    simp
  · have hne : (fetchDoneTasks st.db).isEmpty = false := by
      by_contra hcon
      have h1 : (fetchDoneTasks st.db).isEmpty = true := by
        cases h2 : (fetchDoneTasks st.db).isEmpty
        · exact absurd h2 hcon
        · rfl
      unfold moveToTrashGo at hwb
      rw [if_pos h1] at hwb
      simp at hwb
    unfold deleteDoneTasks
    dsimp only
    rw [hne]
    simp only [Bool.false_eq_true, if_false]
    rw [hwb]
    simp

/-- Task and store used in the C1 witness: one done task, all snapshot
writes failing. -/
def taskC1 : Task := { baseTask with id := 1, done := true }

def stC1 : St := ⟨⟨[taskC1], [], [], 2⟩, []⟩

/-- Witness for C1: the fail-closed theorem applied at a concrete one-task store
whose snapshot writes all fail. -/
theorem claimC1_witness :
    fetchTaskByID stC1.db 1 = some taskC1 ∧
    (moveToTrashGo (fun _ => false) stC1.fs 0 [taskC1]).2 = false ∧
    (moveToTrashGo (fun _ => false) stC1.fs 0 (fetchDoneTasks stC1.db)).2 = false ∧
    (((deleteTask (fun _ => false) stC1 0 1).1.db.tasks = stC1.db.tasks ∧
      (deleteTask (fun _ => false) stC1 0 1).1.db.taskTopics = stC1.db.taskTopics ∧
      (deleteTask (fun _ => false) stC1 0 1).2 = false) ∧
    ((deleteDoneTasks (fun _ => false) stC1 0).1.db.tasks = stC1.db.tasks ∧
      (deleteDoneTasks (fun _ => false) stC1 0).1.db.taskTopics = stC1.db.taskTopics ∧
      (deleteDoneTasks (fun _ => false) stC1 0).2.2 = false)) := by
  have hf : fetchTaskByID stC1.db 1 = some taskC1 := by
    unfold fetchTaskByID getTaskRow fetchTopicsForTask topicsOfTask topicsOfRows sortTopics stC1
    simp [List.find?, taskC1, baseTask]
  have hw : (moveToTrashGo (fun _ => false) stC1.fs 0 [taskC1]).2 = false := by
    unfold moveToTrashGo moveToTrashLoop
    simp
  have hwb : (moveToTrashGo (fun _ => false) stC1.fs 0 (fetchDoneTasks stC1.db)).2 = false := by
    have hdone : fetchDoneTasks stC1.db = [taskC1] := by
      unfold fetchDoneTasks fetchTopicsForTask topicsOfTask topicsOfRows sortTopics stC1
      simp [taskC1, baseTask]
    rw [hdone]
    unfold moveToTrashGo moveToTrashLoop
    simp
  exact ⟨hf, hw, hwb, claimC1_theorem (fun _ => false) stC1 0 1 taskC1 hf hw hwb⟩

/-! ## Claim C4: trash round-trip -/

theorem fetchTaskByID_inv (db : DB) (i : Int) (t : Task)
    (h : fetchTaskByID db i = some t) :
    ∃ u, u ∈ db.tasks ∧ u.id = i ∧ t = { u with topics := fetchTopicsForTask db i } := by
  unfold fetchTaskByID getTaskRow at h
  cases hg : db.tasks.find? (fun u => decide (u.id = i)) with
  | none =>
    rw [hg] at h
    cases h
  | some u =>
    rw [hg] at h
    refine ⟨u, List.mem_of_find?_eq_some hg, ?_, ?_⟩
    · have h2 := List.find?_some hg
      simpa using h2
    · simp only [Option.map_some', Option.some.injEq] at h
      exact h.symm

theorem mem_topicsOf_setRows (rows : List (Int × List Char)) (id : Int)
    (tps : List (List Char)) (x : List Char) :
    x ∈ topicsOfRows (setTaskTopicsTxRows rows id tps) id ↔ x ∈ normalizeTopics tps := by
  unfold setTaskTopicsTxRows
  rw [mem_topicsOfRows, mem_insertIgnoreRows]
  constructor
  · rintro (h | ⟨_, h⟩)
    · rw [List.mem_filter] at h
      simp at h
    · exact h
  · intro h
    exact Or.inr ⟨rfl, h⟩

/-- The trash entry describing the snapshot file DeleteTask writes for a
fetched task. -/
def entryOf (now : Int) (t : Task) : TrashEntry :=
  ⟨⟨now, t.id, 0, sanitizeFilename t.title⟩, now, t⟩

/-- C4: deleting a live task (with all snapshot writes succeeding) and then
restoring its snapshot yields a fresh live row with a new id, equal
title/tags/priority/due/start/recurrence fields and an equal topic set, and
the snapshot file is gone from the trash directory; moreover a restore whose
transaction fails leaves both the database and the trash directory exactly
unchanged (rows are inserted in one transaction and the files are removed
only after it commits). -/
theorem claimC4_theorem (db : DB) (fs : List TrashFile) (now i : Int) (t : Task)
    (hwf : ∀ u ∈ db.tasks, u.id < db.nextId)
    (hclean : ∀ r ∈ db.taskTopics, trim r.2 = r.2 ∧ r.2 ≠ [])
    (hfetch : fetchTaskByID db i = some t) :
    (deleteTask (fun _ => true) ⟨db, fs⟩ now i).2 = true ∧
    (⟨(entryOf now t).path, now, t⟩ : TrashFile)
      ∈ (deleteTask (fun _ => true) ⟨db, fs⟩ now i).1.fs ∧
    (restoreTrash (fun _ => true) (deleteTask (fun _ => true) ⟨db, fs⟩ now i).1
      [entryOf now t]).2 = true ∧
    (∃ u ∈ (restoreTrash (fun _ => true) (deleteTask (fun _ => true) ⟨db, fs⟩ now i).1
        [entryOf now t]).1.db.tasks,
      u.id = db.nextId ∧ u.id ≠ t.id ∧ u.title = t.title ∧ u.tags = t.tags ∧
      u.priority = t.priority ∧ u.due = t.due ∧ u.start = t.start ∧
      u.recurring = t.recurring ∧ u.recurrenceRule = t.recurrenceRule ∧
      u.recurrenceInterval = t.recurrenceInterval) ∧
    (∀ x : List Char,
      x ∈ topicsOfTask (restoreTrash (fun _ => true)
          (deleteTask (fun _ => true) ⟨db, fs⟩ now i).1 [entryOf now t]).1.db db.nextId ↔
      x ∈ topicsOfTask db i) ∧
    (∀ g ∈ (restoreTrash (fun _ => true) (deleteTask (fun _ => true) ⟨db, fs⟩ now i).1
        [entryOf now t]).1.fs, g.name ≠ (entryOf now t).path) ∧
    (∀ (insOk : Nat → Bool) (stX : St) (es : List TrashEntry),
      (restoreTrash insOk stX es).2 = false → (restoreTrash insOk stX es).1 = stX) := by
  obtain ⟨u0, hmem0, hid0, ht⟩ := fetchTaskByID_inv db i t hfetch
  have htid : t.id = i := by
    rw [ht]
    exact hid0
  have hdel : deleteTask (fun _ => true) ⟨db, fs⟩ now i =
      (⟨⟨db.tasks.filter (fun v => decide (¬ v.id = i)),
          db.taskTopics.filter (fun r => decide (¬ r.1 = i)),
          db.topicNotes, db.nextId⟩,
        fsWrite fs ⟨(entryOf now t).path, now, t⟩⟩, true) := by
    unfold deleteTask
    dsimp only
    rw [hfetch]
    rfl
  rw [hdel]
  dsimp only
  have hres : restoreTrash (fun _ => true)
      (⟨⟨db.tasks.filter (fun v => decide (¬ v.id = i)),
          db.taskTopics.filter (fun r => decide (¬ r.1 = i)),
          db.topicNotes, db.nextId⟩,
        fsWrite fs ⟨(entryOf now t).path, now, t⟩⟩ : St) [entryOf now t] =
      (⟨⟨(db.tasks.filter (fun v => decide (¬ v.id = i)))
            ++ [{ t with id := db.nextId, topics := [], completedAt := none }],
          setTaskTopicsTxRows (db.taskTopics.filter (fun r => decide (¬ r.1 = i)))
            db.nextId t.topics,
          db.topicNotes, db.nextId + 1⟩,
        (fsWrite fs ⟨(entryOf now t).path, now, t⟩).filter
          (fun f => decide (¬ f.name ∈ [(entryOf now t).path]))⟩, true) := rfl
  rw [hres]
  dsimp only
  refine ⟨rfl, ?_, rfl, ?_, ?_, ?_, ?_⟩
  · unfold fsWrite
    exact List.mem_append_right _ (List.mem_singleton.mpr rfl)
  · refine ⟨{ t with id := db.nextId, topics := [], completedAt := none },
      List.mem_append_right _ (List.mem_singleton.mpr rfl), rfl, ?_, rfl, rfl, rfl, rfl,
      rfl, rfl, rfl, rfl⟩
    have hlt := hwf u0 hmem0
    rw [htid]
    dsimp only
    omega
  · intro x
    show x ∈ topicsOfRows (setTaskTopicsTxRows
        (db.taskTopics.filter (fun r => decide (¬ r.1 = i))) db.nextId t.topics) db.nextId ↔
      x ∈ topicsOfRows db.taskTopics i
    rw [mem_topicsOf_setRows, mem_normalizeTopics]
    have htop : t.topics = sortTopics (topicsOfRows db.taskTopics i) := by
      rw [ht]
      rfl
    rw [htop]
    constructor
    · rintro ⟨hne, y, hy, hty⟩
      rw [sortTopics, List.mem_mergeSort] at hy
      have hcy := hclean (i, y) ((mem_topicsOfRows _ _ _).mp hy)
      rw [← hty, hcy.1]
      exact hy
    · intro hx
      have hcx := hclean (i, x) ((mem_topicsOfRows _ _ _).mp hx)
      refine ⟨hcx.2, x, ?_, hcx.1⟩
      rw [sortTopics, List.mem_mergeSort]
      exact hx
  · intro g hg
    rw [List.mem_filter] at hg
    have h2 := hg.2
    simp only [decide_eq_true_eq, List.mem_singleton] at h2
    exact h2
  · intro insOk stX es hfail
    unfold restoreTrash at hfail ⊢
    by_cases he : es.isEmpty = true
    · rw [if_pos he] at hfail
      simp at hfail
    · rw [if_neg he] at hfail ⊢
      cases hl : restoreLoop insOk 0 stX.db es with
      | none => rfl
      | some db2 =>
        rw [hl] at hfail
        simp at hfail

/-- Store used in the C4 witness: one live task with one topic. -/
def dbC4 : DB := ⟨[{ baseTask with id := 1 }], [(1, ['x'])], [], 2⟩

/-- The C4 witness task as fetched, topics attached. -/
def tC4 : Task := { baseTask with id := 1, topics := [['x']] }

/-- Witness for C4: the delete-restore round-trip theorem applied at a concrete
one-task, one-topic store. -/
theorem claimC4_witness :
    (∀ u ∈ dbC4.tasks, u.id < dbC4.nextId) ∧
    (∀ r ∈ dbC4.taskTopics, trim r.2 = r.2 ∧ r.2 ≠ []) ∧
    fetchTaskByID dbC4 1 = some tC4 ∧
    ((deleteTask (fun _ => true) ⟨dbC4, []⟩ 0 1).2 = true ∧
      (⟨(entryOf 0 tC4).path, 0, tC4⟩ : TrashFile)
        ∈ (deleteTask (fun _ => true) ⟨dbC4, []⟩ 0 1).1.fs ∧
      (restoreTrash (fun _ => true) (deleteTask (fun _ => true) ⟨dbC4, []⟩ 0 1).1
        [entryOf 0 tC4]).2 = true ∧
      (∃ u ∈ (restoreTrash (fun _ => true) (deleteTask (fun _ => true) ⟨dbC4, []⟩ 0 1).1
          [entryOf 0 tC4]).1.db.tasks,
        u.id = dbC4.nextId ∧ u.id ≠ tC4.id ∧ u.title = tC4.title ∧ u.tags = tC4.tags ∧
        u.priority = tC4.priority ∧ u.due = tC4.due ∧ u.start = tC4.start ∧
        u.recurring = tC4.recurring ∧ u.recurrenceRule = tC4.recurrenceRule ∧
        u.recurrenceInterval = tC4.recurrenceInterval) ∧
      (∀ x : List Char,
        x ∈ topicsOfTask (restoreTrash (fun _ => true)
            (deleteTask (fun _ => true) ⟨dbC4, []⟩ 0 1).1 [entryOf 0 tC4]).1.db dbC4.nextId ↔
        x ∈ topicsOfTask dbC4 1) ∧
      (∀ g ∈ (restoreTrash (fun _ => true) (deleteTask (fun _ => true) ⟨dbC4, []⟩ 0 1).1
          [entryOf 0 tC4]).1.fs, g.name ≠ (entryOf 0 tC4).path) ∧
      (∀ (insOk : Nat → Bool) (stX : St) (es : List TrashEntry),
        (restoreTrash insOk stX es).2 = false → (restoreTrash insOk stX es).1 = stX)) := by
  have hfetch : fetchTaskByID dbC4 1 = some tC4 := by
    have hsort : fetchTopicsForTask dbC4 1 = [['x']] := by
      unfold fetchTopicsForTask topicsOfTask topicsOfRows sortTopics dbC4
      simp
    unfold fetchTaskByID getTaskRow
    rw [show dbC4.tasks.find? (fun u => decide (u.id = 1))
        = some { baseTask with id := 1 } from by unfold dbC4; simp [List.find?, baseTask]]
    rw [Option.map_some', hsort]
    rfl
  exact ⟨by decide, by decide, hfetch,
    claimC4_theorem dbC4 [] 0 1 tC4 (by decide) (by decide) hfetch⟩

end Bada
